import Mathlib

/-!
Verification development for the subtitle-generator repository
(`script.py`, `server.py`).

Text is modelled as `List Char` (one element per Unicode code point, as
Python strings index by code point).  Python regular-expression character
classes are modelled as follows:

* `\s` as the six ASCII whitespace characters Python's `\s` always contains
  (exotic Unicode spaces do not occur in any input considered here);
* `\w` as ASCII alphanumerics, the underscore, and the Devanagari block
  (the only non-ASCII word characters relevant to this program);
* `[a-z]` / upper-casing as the ASCII letters (Devanagari has no case).

Floating-point numbers (timestamps, log-probabilities, temperatures) are
modelled as exact rationals.
-/

namespace SubGen

/-- Characters matched by Python's regex class `\s` (ASCII fragment). -/
def pySpace (c : Char) : Bool :=
  c = ' ' || c = '\t' || c = '\n' || c = '\x0d' || c = '\x0b' || c = '\x0c'

/-- The four punctuation characters of the class `[,.!?]` used by
`_clean_subtitle_text`. -/
def sPunct4 (c : Char) : Bool :=
  c = ',' || c = '.' || c = '!' || c = '?'

/-- The three sentence-ending characters of the class `[.!?]`. -/
def sPunct3 (c : Char) : Bool :=
  c = '.' || c = '!' || c = '?'

/-- Membership in the Devanagari block `[ऀ-ॿ]`. -/
def isDevB (c : Char) : Bool :=
  0x900 ≤ c.toNat && c.toNat ≤ 0x97F

/-- Word characters (Python regex `\w`): ASCII alphanumerics, underscore,
and (for this program's inputs) the Devanagari block. -/
def pyWordCh (c : Char) : Bool :=
  c.isAlphanum || c = '_' || isDevB c

/-- The strip set of `text.strip(' .,!?')`. -/
def stripSet (c : Char) : Bool :=
  c = ' ' || c = '.' || c = ',' || c = '!' || c = '?'

/-- ASCII lower-to-upper case table (Python `str.upper` on the ASCII letters
that `[a-z]` can match). -/
def upperTable : List (Char × Char) :=
  [('a','A'),('b','B'),('c','C'),('d','D'),('e','E'),('f','F'),('g','G'),
   ('h','H'),('i','I'),('j','J'),('k','K'),('l','L'),('m','M'),('n','N'),
   ('o','O'),('p','P'),('q','Q'),('r','R'),('s','S'),('t','T'),('u','U'),
   ('v','V'),('w','W'),('x','X'),('y','Y'),('z','Z')]

/-- Does the regex class `[a-z]` match this character? -/
def isAsciiLower (c : Char) : Bool :=
  upperTable.any (fun p => p.1 = c)

/-- Upper-case one character (identity outside `a`–`z`). -/
def pyUpperCh (c : Char) : Char :=
  (((upperTable.find? (fun p => p.1 = c)).map Prod.snd)).getD c

/-- ASCII upper-to-lower case map (Python `str.lower`; identity outside
`A`–`Z`, in particular on Devanagari, which has no case). -/
def pyLowerCh (c : Char) : Char :=
  (((upperTable.find? (fun p => p.2 = c)).map Prod.fst)).getD c

/-- Python `text.strip()`: drop `\s` characters from both ends. -/
def stripWs (l : List Char) : List Char :=
  ((l.dropWhile pySpace).reverse.dropWhile pySpace).reverse

/-- Python `text.strip(' .,!?')` as used by `_clean_subtitle_text`. -/
def stripPunctEnds (l : List Char) : List Char :=
  ((l.dropWhile stripSet).reverse.dropWhile stripSet).reverse

/-- Does `pat` occur at the start of `l` (Python `str.startswith` /
a successful anchored regex match)? -/
def listStartsWith : List Char → List Char → Bool
  | [], _ => true
  | _ :: _, [] => false
  | p :: ps, c :: cs => p = c && listStartsWith ps cs

/-- Python's substring test `pat in l`. -/
def containsSub (pat : List Char) : List Char → Bool
  | [] => pat.isEmpty
  | c :: cs => listStartsWith pat (c :: cs) || containsSub pat cs

/-- Head of a character list, or a default. -/
def headD (l : List Char) (d : Char) : Char := l.headD d

/-- re.sub(r'\s+', ' ', text): collapse every whitespace run to one space. -/
def collapseWs : List Char → List Char
  | [] => []
  | [c] => if pySpace c then [' '] else [c]
  | c :: d :: cs =>
    if pySpace c then
      if pySpace d then collapseWs (d :: cs) else ' ' :: collapseWs (d :: cs)
    else c :: collapseWs (d :: cs)

/-- re.sub of a leftmost-greedy scan for a pattern `\s*([,.!?])\s*`,
replaced by the punctuation mark followed by one space
(`_clean_subtitle_text`, first punctuation fix). -/
def fixPunctSpacing : List Char → List Char
  | [] => []
  | c :: cs =>
    if sPunct4 c then c :: ' ' :: fixPunctSpacing (cs.dropWhile pySpace)
    else if pySpace c then
      let rest := cs.dropWhile pySpace
      if sPunct4 (headD rest ' ') && !rest.isEmpty then
        headD rest ' ' :: ' ' :: fixPunctSpacing (rest.tail.dropWhile pySpace)
      else (c :: cs.takeWhile pySpace) ++ fixPunctSpacing rest
    else c :: fixPunctSpacing cs
termination_by l => l.length
decreasing_by
  · simp only [List.length_cons]
    have := (List.dropWhile_suffix (l := cs) pySpace).length_le
    omega
  · simp only [List.length_cons]
    have h1 := (List.dropWhile_suffix (l := cs) pySpace).length_le
    have h2 := (List.dropWhile_suffix (l := (cs.dropWhile pySpace).tail) pySpace).length_le
    have h3 := List.length_tail (cs.dropWhile pySpace)
    omega
  · simp only [List.length_cons]
    have := (List.dropWhile_suffix (l := cs) pySpace).length_le
    omega
  · simp only [List.length_cons]; omega

/-- re.sub(r'\s+([,.!?])', r'\1', text): delete whitespace standing before
punctuation (`_clean_subtitle_text`, second punctuation fix). -/
def dropSpaceBeforePunct : List Char → List Char
  | [] => []
  | c :: cs =>
    if pySpace c then
      let rest := cs.dropWhile pySpace
      if sPunct4 (headD rest ' ') && !rest.isEmpty then
        headD rest ' ' :: dropSpaceBeforePunct rest.tail
      else (c :: cs.takeWhile pySpace) ++ dropSpaceBeforePunct rest
    else c :: dropSpaceBeforePunct cs
termination_by l => l.length
decreasing_by
  · simp only [List.length_cons]
    have h1 := (List.dropWhile_suffix (l := cs) pySpace).length_le
    have h3 := List.length_tail (cs.dropWhile pySpace)
    omega
  · simp only [List.length_cons]
    have := (List.dropWhile_suffix (l := cs) pySpace).length_le
    omega
  · simp only [List.length_cons]; omega

/-- re.sub(r'([.!?]\s+)([a-z])', …, text): upper-case an ASCII letter that
follows sentence punctuation and at least one whitespace character
(`_clean_subtitle_text`, final capitalisation). -/
def capAfterPunct : List Char → List Char
  | [] => []
  | c :: cs =>
    let run := cs.takeWhile pySpace
    let rest := cs.dropWhile pySpace
    if sPunct3 c && !run.isEmpty && isAsciiLower (headD rest ' ') then
      c :: run ++ pyUpperCh (headD rest ' ') :: capAfterPunct rest.tail
    else c :: capAfterPunct cs
termination_by l => l.length
decreasing_by
  · simp only [List.length_cons]
    have h1 := (List.dropWhile_suffix (l := cs) pySpace).length_le
    have h3 := List.length_tail (cs.dropWhile pySpace)
    omega
  · simp only [List.length_cons]; omega

/-- LocalWhisperTools._clean_subtitle_text: collapse whitespace, normalise
punctuation spacing, strip edge punctuation, capitalise after sentence
punctuation. -/
def clean_subtitle_text (l : List Char) : List Char :=
  capAfterPunct (stripPunctEnds (dropSpaceBeforePunct (fixPunctSpacing (collapseWs l))))

/-- Python `text.replace(pat, rep)`: replace every occurrence of a non-empty
`pat`, scanning left to right without overlap. -/
def pyReplace (pat rep : List Char) : List Char → List Char
  | [] => []
  | c :: cs =>
    if !pat.isEmpty && listStartsWith pat (c :: cs) then
      rep ++ pyReplace pat rep ((c :: cs).drop pat.length)
    else c :: pyReplace pat rep cs
termination_by l => l.length
decreasing_by
  · rename_i h
    simp only [Bool.and_eq_true, Bool.not_eq_true'] at h
    simp only [List.length_drop, List.length_cons]
    have : 1 ≤ pat.length := by
      cases pat with
      | nil => simp at h
      | cons a as => simp
    omega
  · simp only [List.length_cons]; omega

/-- The ordered correction table of `_fix_hindi_hinglish_errors`
(insertion order of the Python dict literal). -/
def corrections : List (List Char × List Char) :=
  [("और".toList, "aur".toList),
   ("है ना".toList, "hai na".toList),
   ("क्या".toList, "kya".toList),
   ("कैसे".toList, "kaise".toList),
   ("अच्छा".toList, "accha".toList),
   ("बहुत".toList, "bahut".toList),
   ("थोड़ा".toList, "thoda".toList),
   ("theek".toList, "thik".toList),
   ("paani".toList, "pani".toList),
   ("ghar".toList, "ghar".toList),
   ("kaun".toList, "kaun".toList),
   ("kyun".toList, "kyun".toList),
   ("hai na".toList, "hai na".toList),
   ("kar na".toList, "karna".toList),
   ("ja na".toList, "jana".toList),
   ("aa na".toList, "aana".toList)]

/-- re.sub(r'([.!?])\s*([.!?])+', r'\1', text): collapse a sentence mark,
optional whitespace, and a following run of sentence marks to the first
mark alone. -/
def dedupePunct : List Char → List Char
  | [] => []
  | c :: cs =>
    if sPunct3 c then
      let rest := cs.dropWhile pySpace
      if sPunct3 (headD rest ' ') && !rest.isEmpty then
        c :: dedupePunct (rest.dropWhile sPunct3)
      else c :: dedupePunct cs
    else c :: dedupePunct cs
termination_by l => l.length
decreasing_by
  · simp only [List.length_cons]
    have h1 := (List.dropWhile_suffix (l := cs) pySpace).length_le
    have h2 := (List.dropWhile_suffix (l := cs.dropWhile pySpace) sPunct3).length_le
    omega
  · simp only [List.length_cons]; omega
  · simp only [List.length_cons]; omega

/-- re.split(r'([.!?]\s*)', text): the alternating list of text parts and
captured separators (a sentence mark plus its trailing whitespace). -/
def splitSent (l : List Char) : List (List Char) :=
  let pre := l.takeWhile (fun c => !sPunct3 c)
  let rest := l.dropWhile (fun c => !sPunct3 c)
  if rest.isEmpty then [pre]
  else
    pre :: (headD rest ' ' :: rest.tail.takeWhile pySpace)
      :: splitSent (rest.tail.dropWhile pySpace)
termination_by l.length
decreasing_by
  rename_i h
  simp only [Bool.not_eq_true', List.isEmpty_iff] at h
  have h1 := (List.dropWhile_suffix (l := l) (fun c => !sPunct3 c)).length_le
  have h2 := (List.dropWhile_suffix
    (l := (l.dropWhile (fun c => !sPunct3 c)).tail) pySpace).length_le
  have h3 := List.length_tail (l.dropWhile (fun c => !sPunct3 c))
  have h4 : 1 ≤ (l.dropWhile (fun c => !sPunct3 c)).length :=
    List.length_pos.mpr h
  omega

/-- One part of the sentence loop of `_fix_hindi_hinglish_errors`: a part
that is non-blank and does not begin with a sentence mark is stripped of
whitespace and its first character upper-cased; all other parts pass
through unchanged. -/
def capPart (p : List Char) : List Char :=
  if (stripWs p).isEmpty then p
  else if sPunct3 (headD p ' ') then p
  else
    match stripWs p with
    | [] => p
    | d :: ds => pyUpperCh d :: ds

/-- LocalWhisperTools._fix_hindi_hinglish_errors: ordered replacement table,
whitespace collapse, repeated-punctuation removal, per-sentence
capitalisation, final strip. -/
def fix_hindi_hinglish_errors (l : List Char) : List Char :=
  let t1 := corrections.foldl (fun acc p => pyReplace p.1 p.2 acc) l
  let t2 := collapseWs t1
  let t3 := dedupePunct t2
  stripWs (((splitSent t3).map capPart).flatten)

/-- The character of a decimal digit. -/
def digitCharOf (d : Nat) : Char :=
  "0123456789".toList.getD d '0'

/-- Python `str(n)` for a natural number. -/
def natToChars (n : Nat) : List Char :=
  if h : n < 10 then [digitCharOf n]
  else natToChars (n / 10) ++ [digitCharOf (n % 10)]
termination_by n
decreasing_by
  exact Nat.div_lt_self (by omega) (by omega)

/-- Zero-pad a digit string on the left to the given width
(Python format `{x:02d}` / `{x:03d}`). -/
def padZeros (w : Nat) (s : List Char) : List Char :=
  List.replicate (w - s.length) '0' ++ s

/-- Python's float modulus `a % b` for non-negative operands. -/
def qmod (a b : ℚ) : ℚ := a - b * (⌊a / b⌋ : ℤ)

/-- LocalWhisperTools._format_timestamp: negative or invalid input is clamped
to zero, then rendered `HH:MM:SS,mmm`. -/
def format_timestamp (q : ℚ) : List Char :=
  let s : ℚ := if q < 0 then 0 else q
  let hours : Nat := (⌊s / 3600⌋).toNat
  let minutes : Nat := (⌊qmod s 3600 / 60⌋).toNat
  let secs : Nat := (⌊qmod s 60⌋).toNat
  let millis : Nat := (⌊qmod s 1 * 1000⌋).toNat
  padZeros 2 (natToChars hours) ++ ':' :: padZeros 2 (natToChars minutes) ++
    ':' :: padZeros 2 (natToChars secs) ++ ',' :: padZeros 3 (natToChars millis)

/-- One segment of a Whisper engine result: start and end time, text, and
the segment's `avg_logprob` (absent in some engine outputs). -/
structure Seg where
  start : ℚ
  stop : ℚ
  text : List Char
  avg_logprob : Option ℚ
deriving DecidableEq

/-- Is the cleaned text judged pure noise by `_convert_to_srt`?  First test:
re.match(r'^[\s\d\W]+$', text) — every character is whitespace, a digit, or
a non-word character (and the text is non-empty). -/
def junkOnly (t : List Char) : Bool :=
  !t.isEmpty && t.all (fun c => pySpace c || c.isDigit || !pyWordCh c)

/-- Second test: re.search(r'[ऀ-ॿ\w]', text) — some character is
Devanagari or a word character. -/
def hasWordOrDev (t : List Char) : Bool :=
  t.any (fun c => isDevB c || pyWordCh c)

/-- The line-building loop of LocalWhisperTools._convert_to_srt: each kept
segment contributes its running number, a timestamp line, its cleaned text
and a blank separator; the counter advances only on kept segments. -/
def srtLines : List Seg → Nat → List (List Char)
  | [], _ => []
  | s :: rest, counter =>
    let startT := format_timestamp s.start
    let endT := format_timestamp s.stop
    let t0 := stripWs s.text
    if t0.isEmpty then srtLines rest counter
    else
      let t := clean_subtitle_text t0
      if t.length < 1 || (t.length < 3 && !t.any isDevB) then srtLines rest counter
      else if junkOnly t && !hasWordOrDev t then srtLines rest counter
      else
        natToChars counter :: (startT ++ " --> ".toList ++ endT) :: t :: [] ::
          srtLines rest (counter + 1)

/-- Join lines with a newline (Python "\n".join). -/
def joinNl : List (List Char) → List Char
  | [] => []
  | [x] => x
  | x :: xs => x ++ '\n' :: joinNl xs

/-- LocalWhisperTools._convert_to_srt on a segment list (the missing-segments
guard of the source is handled by its caller model, `transcribe_audio_local`,
which distinguishes a missing segment list from an empty one). -/
def convert_to_srt (segs : List Seg) : List Char :=
  joinNl (srtLines segs 1)

/-- Is this character not the newline? -/
def notNlB (c : Char) : Bool := !(c = '\n')

/-- Split on a newline (Python content.split('\n')). -/
def splitNl (l : List Char) : List (List Char) :=
  let pre := l.takeWhile notNlB
  let rest := l.dropWhile notNlB
  if rest.isEmpty then [pre] else pre :: splitNl rest.tail
termination_by l.length
decreasing_by
  rename_i h
  simp only [Bool.not_eq_true', List.isEmpty_iff] at h
  have h1 := (List.dropWhile_suffix (l := l) notNlB).length_le
  have h2 := List.length_tail (l.dropWhile notNlB)
  have h3 : 1 ≤ (l.dropWhile notNlB).length := by
    cases hx : l.dropWhile notNlB with
    | nil => exact absurd hx h
    | cons a as => simp
  omega

/-- Python `str.isdigit` on an already-stripped line: non-empty and all
decimal digits. -/
def isDigitStr (l : List Char) : Bool :=
  !l.isEmpty && l.all Char.isDigit

/-- VideoProcessor.validate_srt_file on the file's content (the existence
check and file IO of the source are elided; the argument is the text that
was read).  The checks run in source order and the first failure's reason
is returned. -/
def validate_srt_file (raw : List Char) : Bool × List Char :=
  let content := stripWs raw
  if content.isEmpty then (false, "SRT file is empty".toList)
  else
    let lines := splitNl content
    if lines.length < 3 then (false, "SRT file too short".toList)
    else if !isDigitStr (stripWs (lines.headD [])) then
      (false, "SRT file doesn't start with sequence number".toList)
    else if !(lines.take 10).any (fun l => containsSub "-->".toList l) then
      (false, "No timestamp found in SRT file".toList)
    else (true, "SRT file is valid".toList)

/-- LocalWhisperTools.HINDI_INDICATORS. -/
def hindiIndicators : List (List Char) :=
  ["है".toList, "हैं".toList, "था".toList, "थी".toList, "करना".toList,
   "कर".toList, "और".toList, "का".toList, "की".toList, "के".toList,
   "में".toList, "से".toList, "को".toList, "पर".toList,
   "यह".toList, "वह".toList, "हम".toList, "तुम".toList, "आप".toList,
   "मैं".toList, "ये".toList, "वो".toList, "क्या".toList, "कैसे".toList,
   "कहाँ".toList, "कब".toList, "क्यों".toList,
   "अच्छा".toList, "बुरा".toList, "बड़ा".toList, "छोटा".toList,
   "नया".toList, "पुराना".toList, "सही".toList, "गलत".toList]

/-- The fixed table of LocalWhisperTools._romanize_hindi_word. -/
def romanizationMap : List (List Char × List Char) :=
  [("है".toList, "hai".toList), ("हैं".toList, "hain".toList),
   ("था".toList, "tha".toList), ("थी".toList, "thi".toList),
   ("करना".toList, "karna".toList), ("कर".toList, "kar".toList),
   ("और".toList, "aur".toList),
   ("का".toList, "ka".toList), ("की".toList, "ki".toList),
   ("के".toList, "ke".toList), ("में".toList, "mein".toList),
   ("से".toList, "se".toList), ("को".toList, "ko".toList),
   ("पर".toList, "par".toList),
   ("यह".toList, "yah".toList), ("वह".toList, "vah".toList),
   ("हम".toList, "hum".toList), ("तुम".toList, "tum".toList),
   ("आप".toList, "aap".toList), ("मैं".toList, "main".toList),
   ("क्या".toList, "kya".toList), ("कैसे".toList, "kaise".toList),
   ("कहाँ".toList, "kahan".toList),
   ("अच्छा".toList, "acha".toList), ("बुरा".toList, "bura".toList)]

/-- LocalWhisperTools._romanize_hindi_word: table lookup, identity when the
word has no entry. -/
def romanize_hindi_word (w : List Char) : List Char :=
  (((romanizationMap.find? (fun p => p.1 = w)).map Prod.snd)).getD w

/-- The romanized-Hindi tokens checked directly by detect_language_type. -/
def romTokens : List (List Char) :=
  ["hai".toList, "kar".toList, "kya".toList, "kaise".toList,
   "acha".toList, "bura".toList]

/-- Count of Devanagari-block characters in the sample
(len(re.findall(r'[ऀ-ॿ]', text))). -/
def devCount (t : List Char) : Nat :=
  (t.filter isDevB).length

/-- Count of HINDI_INDICATORS entries found in the sample either in native
script or through the romanization table. -/
def hindiWordMatches (t : List Char) : Nat :=
  (hindiIndicators.filter
    (fun w => containsSub w t || containsSub (romanize_hindi_word w) t)).length

/-- The decision logic of LocalWhisperTools.detect_language_type, as a
function of the engine's language tag and the sample text (the sample is
lower-cased first, as in the source; the engine call itself and the
engine-failure fallback to hinglish are outside this pure core). -/
def detect_language_type (detectedLang : List Char) (sampleText : List Char) :
    List Char :=
  let t := sampleText.map pyLowerCh
  let cnt := devCount t
  if detectedLang = "hi".toList ∨ cnt > 10 then
    if 10 * cnt > 3 * t.length then "hindi".toList else "hinglish".toList
  else if hindiWordMatches t > 3 ∨ romTokens.any (fun w => containsSub w t) then
    "hinglish".toList
  else "english".toList

/-- Claim C2's reading of the classifier: four rules applied in order,
first match winning.  Stated from the claim's words, to be compared with
`detect_language_type`. -/
def detectLanguageTypeSpec (detectedLang : List Char) (sampleText : List Char) :
    List Char :=
  let t := sampleText.map pyLowerCh
  let cnt := devCount t
  if (detectedLang = "hi".toList ∨ cnt > 10) ∧ 10 * cnt > 3 * t.length then
    "hindi".toList
  else if detectedLang = "hi".toList ∨ cnt > 10 then
    "hinglish".toList
  else if hindiWordMatches t > 3 ∨ romTokens.any (fun w => containsSub w t) then
    "hinglish".toList
  else "english".toList

/-- The resolved Hindi language code 'hi'. -/
def hiCode : List Char := "hi".toList

/-- The low-confidence threshold −0.8 of the retry gate. -/
def lowConfThreshold : ℚ := -(4/5)

/-- The retry decoding temperature 0.2. -/
def retryTemp : ℚ := 1/5

/-- Mean segment log-probability as computed by transcribe_audio_local:
sum of `avg_logprob` (default −1.0 when absent) over max(count, 1). -/
def meanLogprob (segs : List Seg) : ℚ :=
  (segs.map (fun s => s.avg_logprob.getD (-1))).sum / (max segs.length 1 : ℕ)

/-- LocalWhisperTools._post_process_hindi_hinglish on the segment list:
strip each text, drop blanks, apply the correction pass, and for resolved
language 'hi' drop segments whose `avg_logprob` (default 0 here) is below
−1.5. -/
def post_process_hindi_hinglish (segs : List Seg) (language : Option (List Char)) :
    List Seg :=
  segs.filterMap (fun s =>
    let t := stripWs s.text
    if t.isEmpty then none
    else
      let t2 := fix_hindi_hinglish_errors t
      if language = some hiCode ∧ s.avg_logprob.getD 0 < -(3/2 : ℚ) then none
      else some { s with text := t2 })

/-- One call made to the Whisper engine: the language option passed (none
when the hint was removed) and the decoding temperature. -/
structure EngineCall where
  lang : Option (List Char)
  temp : ℚ
deriving DecidableEq

/-- A Whisper engine result: an exception message, or a result whose
segment list may be missing (`'segments' not in result` / falsy result). -/
abbrev EngineResult := Except (List Char) (Option (List Seg))

/-- The error string of the FileNotFoundError branch. -/
def errFileNotFound (audioPath : List Char) : List Char :=
  "Error transcribing audio: Audio file not found: ".toList ++ audioPath

/-- The error-string prefix of the top-level exception handler. -/
def errEngineHead : List Char := "Error transcribing audio: ".toList

/-- The error string of the missing-segments ValueError. -/
def errNoSegments : List Char :=
  "Error transcribing audio: Invalid transcription result - no segments found".toList

/-- The error string of the empty-SRT ValueError. -/
def errEmptySrt : List Char :=
  "Error transcribing audio: Generated SRT content is empty".toList

/-- Final serialization step of transcribe_audio_local once a result has
been chosen: missing segments raise, the post-processed SRT is produced,
and a blank SRT raises. -/
def finishTranscription (r : Option (List Seg)) (language : Option (List Char)) :
    List Char :=
  match r with
  | none => errNoSegments
  | some segs =>
    let processed := post_process_hindi_hinglish segs language
    let srt := convert_to_srt processed
    if (stripWs srt).isEmpty then errEmptySrt else srt

/-- The observable trace of one transcribe_audio_local run: the returned
string, the engine calls made (in order, with their language option and
temperature), and the engine result finally adopted (none when the audio
file was missing). -/
structure TranscribeTrace where
  output : List Char
  calls : List EngineCall
  chosen : Option EngineResult

/-- LocalWhisperTools.transcribe_audio_local, after language resolution:
primary engine pass at temperature 0 with the resolved language, a single
confidence-gated retry (language hint removed, temperature 0.2) when the
mean log-probability is below −0.8 and the resolved language is 'hi', the
retry adopted exactly when its mean is strictly greater, then validation
and serialization.  Engine exceptions become Error strings through the
surrounding handler. -/
def transcribe_audio_local (audioExists : Bool) (audioPath : List Char)
    (engine : Option (List Char) → ℚ → EngineResult)
    (language : Option (List Char)) : TranscribeTrace :=
  if ¬ audioExists then ⟨errFileNotFound audioPath, [], none⟩
  else
    match engine language 0 with
    | .error e => ⟨errEngineHead ++ e, [⟨language, 0⟩], some (.error e)⟩
    | .ok r =>
      let avg := meanLogprob (r.getD [])
      if avg < lowConfThreshold ∧ language = some hiCode then
        match engine none retryTemp with
        | .error e =>
          ⟨errEngineHead ++ e, [⟨language, 0⟩, ⟨none, retryTemp⟩], some (.error e)⟩
        | .ok r2 =>
          let avg2 := meanLogprob (r2.getD [])
          let rf := if avg2 > avg then r2 else r
          ⟨finishTranscription rf language, [⟨language, 0⟩, ⟨none, retryTemp⟩],
            some (.ok rf)⟩
      else ⟨finishTranscription r language, [⟨language, 0⟩], some (.ok r)⟩

/-- Does a transcription return value denote failure
(srt_content.startswith("Error") in process_video_with_captions)? -/
def isErrorOutput (s : List Char) : Bool :=
  listStartsWith "Error".toList s

/-- A concrete engine for exercising the retry path: the hinted pass
returns one segment of mean log-probability −0.9, the unhinted pass one
of mean −0.5. -/
def c1WitnessEngine : Option (List Char) → ℚ → EngineResult :=
  fun lang _ =>
    match lang with
    | some _ => .ok (some [⟨0, 1, "primary text".toList, some (-(9/10))⟩])
    | none => .ok (some [⟨0, 1, "retry text".toList, some (-(1/2))⟩])

/-- A concrete engine returning one confident English segment. -/
def c8WitnessEngine : Option (List Char) → ℚ → EngineResult :=
  fun _ _ => .ok (some [⟨0, 1, "hello there".toList, some 0⟩])

/-- Outcome of one ffmpeg invocation inside burn_subtitles_to_video:
exit status 0, a non-zero exit status, or a raised timeout. -/
inductive RunOutcome
  | ok
  | exitFail
  | timedOut
deriving DecidableEq

/-- Environment of one burn_subtitles_to_video call: tool availability,
SRT validity, whether create_styled_ass_file succeeds, and the outcome of
each strategy's ffmpeg run (consulted only if that strategy is reached). -/
structure BurnEnv where
  ffmpegAvailable : Bool
  srtValid : Bool
  styledAssOk : Bool
  run1 : RunOutcome
  run2 : RunOutcome
  run3 : RunOutcome
  run4 : RunOutcome
deriving DecidableEq

/-- Which temporary artifacts exist on disk when burn_subtitles_to_video
returns: the styled .ass file of strategy 1 and the co-located
temp_subtitles.srt copy of strategy 3. -/
structure TempFiles where
  assFileExists : Bool
  tempSrtExists : Bool
deriving DecidableEq

/-- Strategy 4 (raw-path ass filter, last resort). -/
def burnFrom4 (e : BurnEnv) (st : TempFiles) : Bool × TempFiles :=
  match e.run4 with
  | .ok => (true, st)
  | _ => (false, st)

/-- Strategy 3 (copy the SRT next to the video): the copy is created, the
run executes, and the cleanup line runs only when no exception was raised
— a timeout skips it. -/
def burnFrom3 (e : BurnEnv) (st : TempFiles) : Bool × TempFiles :=
  let st1 := { st with tempSrtExists := true }
  match e.run3 with
  | .ok => (true, { st1 with tempSrtExists := false })
  | .exitFail => burnFrom4 e { st1 with tempSrtExists := false }
  | .timedOut => burnFrom4 e st1

/-- Strategy 2 (plain subtitles filter): no temporary artifact of its own. -/
def burnFrom2 (e : BurnEnv) (st : TempFiles) : Bool × TempFiles :=
  match e.run2 with
  | .ok => (true, st)
  | _ => burnFrom3 e st

/-- VideoProcessor.burn_subtitles_to_video: availability and validity
gates, then the four-strategy cascade.  Strategy 1 writes the styled .ass
file and removes it only on a zero exit status; a non-zero status or a
timeout leaves it in place and cascades. -/
def burn_subtitles_to_video (e : BurnEnv) : Bool × TempFiles :=
  if ¬ e.ffmpegAvailable then (false, ⟨false, false⟩)
  else if ¬ e.srtValid then (false, ⟨false, false⟩)
  else if e.styledAssOk then
    match e.run1 with
    | .ok => (true, ⟨false, false⟩)
    | _ => burnFrom2 e ⟨true, false⟩
  else burnFrom2 e ⟨false, false⟩

/-- The saved-subtitle path of process_video_with_captions
(output_path / "captions.srt", kept abstract). -/
def srtSavePath : List Char := "captions.srt".toList

/-- The burned-video path produced by create_video_with_subtitles on
success (its timestamped name kept abstract). -/
def videoSavePath : List Char := "video_with_subtitles.mp4".toList

/-- Result triple of process_video_with_captions:
(srt path or None, video path or None, message). -/
structure PipelineResult where
  srtPath : Option (List Char)
  videoPath : Option (List Char)
  message : List Char
deriving DecidableEq

/-- process_video_with_captions: input check, audio extraction, the
transcription outcome (given here as the string transcribe_audio_local
returned), SRT persistence, and the optional burn-in step, whose failure
leaves the video path empty but still returns Success. -/
def process_video_with_captions (videoExists extractionOk : Bool)
    (srtContent : List Char) (createVideo : Bool) (e : BurnEnv)
    (outputFileExists : Bool) : PipelineResult :=
  if ¬ videoExists then
    ⟨none, none, "Video file not found".toList⟩
  else if ¬ extractionOk then
    ⟨none, none, "Failed to extract audio from video".toList⟩
  else if isErrorOutput srtContent then
    ⟨none, none, srtContent⟩
  else
    let videoPath :=
      if createVideo ∧ (burn_subtitles_to_video e).1 ∧ outputFileExists then
        some videoSavePath
      else none
    ⟨some srtSavePath, videoPath, "Success".toList⟩

/-- The ProgressTracker instance fields of server.py. -/
structure Tracker where
  progress : Nat
  current_step : List Char
  message : List Char
  completed : Bool
  error : Option (List Char)
deriving DecidableEq

/-- ProgressTracker.__init__. -/
def initTracker : Tracker := ⟨0, [], [], false, none⟩

/-- A processing_jobs[job_id] dictionary entry. -/
structure JobData where
  progress : Nat
  current_step : List Char
  message : List Char
  completed : Bool
  error : Option (List Char)
  srt_path : Option (List Char)
  video_with_subs_path : Option (List Char)
deriving DecidableEq

/-- The entry created when a job is accepted (server.py, process_video). -/
def initJobData : JobData :=
  ⟨0, "Initializing".toList, "Starting video processing".toList, false, none,
   none, none⟩

/-- ProgressTracker.update: set step and message, set progress when given,
and write the tracker's progress, step, message, completed flag and error
into the job dictionary. -/
def trackerUpdate (t : Tracker) (j : JobData) (step msg : List Char)
    (progress : Option Nat) : Tracker × JobData :=
  let t' : Tracker :=
    { t with current_step := step, message := msg,
             progress := progress.getD t.progress }
  (t', { j with progress := t'.progress, current_step := step, message := msg,
                completed := t'.completed, error := t'.error })

/-- Replay a list of mid-run progress-callback updates
(step, message, optional progress). -/
def runCallbacks (tj : Tracker × JobData)
    (mid : List (List Char × List Char × Option Nat)) : Tracker × JobData :=
  mid.foldl (fun tj u => trackerUpdate tj.1 tj.2 u.1 u.2.1 u.2.2) tj

/-- server.py process_video_background: the initial update, the mid-run
progress callbacks, then either the success finalisation (srt path
present) or the exception handler (srt path absent: the dictionary gets
error and completed=True, after which tracker.update runs once more with
the tracker's own completed flag, which was never set on this path). -/
def process_video_background (j : JobData)
    (mid : List (List Char × List Char × Option Nat))
    (r : PipelineResult) : Tracker × JobData :=
  let tj0 := trackerUpdate initTracker j "Initializing".toList
    "Starting video processing".toList (some 0)
  let tj1 := runCallbacks tj0 mid
  match r.srtPath with
  | some p =>
    let t2 : Tracker := { tj1.1 with completed := true, progress := 100 }
    let j2 : JobData :=
      { tj1.2 with completed := true, srt_path := some p,
                   video_with_subs_path := r.videoPath, message := r.message }
    trackerUpdate t2 j2 "Completed".toList
      "Video processing completed successfully!".toList (some 100)
  | none =>
    let emsg := if r.message.isEmpty then "Processing failed".toList else r.message
    let t2 : Tracker := { tj1.1 with error := some emsg }
    let j2 : JobData := { tj1.2 with error := some emsg, completed := true }
    trackerUpdate t2 j2 "Error".toList
      ("Processing failed: ".toList ++ emsg) none

/-- The JSON body get_job_status builds (fields irrelevant to the claims
are elided). -/
structure StatusResponse where
  rtype : List Char
  videoCreated : Option Bool
  videoWithSubtitles : Option (List Char)
  completed : Option Bool
  error : Option (List Char)
deriving DecidableEq

/-- server.py get_job_status: a completed job without error yields the
complete response, with videoCreated exactly when a video path is stored;
otherwise a progress or error response carrying the stored completed flag
and error. -/
def get_job_status (j : JobData) : StatusResponse :=
  if j.completed ∧ j.error = none then
    ⟨"complete".toList, some j.video_with_subs_path.isSome,
     j.video_with_subs_path, none, none⟩
  else
    ⟨(if j.error = none then "progress".toList else "error".toList),
     none, none, some j.completed, j.error⟩

/-- Claim C5's emission rule, stated on a segment's cleaned text: non-empty,
at least 3 characters unless a Devanagari character is present (then 1
suffices), and not pure whitespace/digits/punctuation devoid of word or
Devanagari characters.  A kept segment contributes its timestamp line and
cleaned text. -/
def keptEntry (s : Seg) : Option (List Char × List Char) :=
  let t := clean_subtitle_text (stripWs s.text)
  if !t.isEmpty && (decide (3 ≤ t.length) || t.any isDevB) &&
      !(junkOnly t && !hasWordOrDev t) then
    some (format_timestamp s.start ++ " --> ".toList ++ format_timestamp s.stop, t)
  else none

/-- Claim C5's numbering rule: surviving entries receive consecutive
numbers from the given seed, in source order. -/
def numberedBlocks : Nat → List (List Char × List Char) → List (List Char)
  | _, [] => []
  | n, (ts, t) :: rest => natToChars n :: ts :: t :: [] :: numberedBlocks (n + 1) rest

/-- The per-segment text normalization of the pipeline (spec section 4.3):
the correction pass `_fix_hindi_hinglish_errors` applied during
post-processing followed by `_clean_subtitle_text` applied during
serialization. -/
def normalize_text (l : List Char) : List Char :=
  clean_subtitle_text (fix_hindi_hinglish_errors l)

/-- Properties of a serialized entry needed to validate the document: the
timestamp line carries the arrow and no newline; the text is non-empty,
newline-free, and ends in a non-whitespace character. -/
def EntryOk (ts t : List Char) : Prop :=
  containsSub "-->".toList ts = true ∧ '\n' ∉ ts ∧ t ≠ [] ∧ '\n' ∉ t ∧
  ∀ c, t.getLast? = some c → pySpace c = false

/-! Helper lemmas. -/

theorem listStartsWith_refl_append (p r : List Char) :
    listStartsWith p (p ++ r) = true := by
  induction p with
  | nil => simp [listStartsWith]
  | cons a as ih => simp [listStartsWith, ih]

theorem containsSub_nil_pat (l : List Char) : containsSub [] l = true := by
  cases l with
  | nil => rfl
  | cons c cs => simp [containsSub, listStartsWith]

theorem containsSub_middle (pat a b : List Char) :
    containsSub pat (a ++ pat ++ b) = true := by
  induction a with
  | nil =>
    simp only [List.nil_append]
    cases pat with
    | nil => exact containsSub_nil_pat b
    | cons p ps =>
      have : (p :: ps) ++ b = p :: (ps ++ b) := rfl
      rw [this]
      have hs : listStartsWith (p :: ps) (p :: (ps ++ b)) = true := by
        have : p :: (ps ++ b) = (p :: ps) ++ b := rfl
        rw [this]
        exact listStartsWith_refl_append (p :: ps) b
      simp [containsSub, hs]
  | cons x xs ih =>
    have : (x :: xs) ++ pat ++ b = x :: (xs ++ pat ++ b) := by simp
    rw [this]
    simp only [containsSub, Bool.or_eq_true]
    right
    exact ih

theorem joinNl_cons_of_ne_nil (x : List Char) (xs : List (List Char))
    (h : xs ≠ []) : joinNl (x :: xs) = x ++ '\n' :: joinNl xs := by
  cases xs with
  | nil => exact absurd rfl h
  | cons y ys => rfl

theorem joinNl_append_singleton (M : List (List Char)) (x : List Char)
    (h : M ≠ []) : joinNl (M ++ [x]) = joinNl M ++ '\n' :: x := by
  induction M with
  | nil => exact absurd rfl h
  | cons y ys ih =>
    cases ys with
    | nil => rfl
    | cons z zs =>
      rw [List.cons_append, joinNl_cons_of_ne_nil y (z :: zs ++ [x]) (by simp),
        joinNl_cons_of_ne_nil y (z :: zs) (by simp), ih (by simp)]
      simp

theorem takeWhile_notNl (x : List Char) (h : '\n' ∉ x) :
    x.takeWhile notNlB = x := by
  induction x with
  | nil => rfl
  | cons a as ih =>
    simp only [List.mem_cons, not_or] at h
    simp only [List.takeWhile_cons]
    rw [if_pos (by simp [notNlB]; exact fun hc => h.1 hc.symm), ih h.2]

theorem dropWhile_notNl (x : List Char) (h : '\n' ∉ x) :
    x.dropWhile notNlB = [] := by
  have := List.takeWhile_append_dropWhile (p := notNlB) (l := x)
  rw [takeWhile_notNl x h] at this
  have hlen := congrArg List.length this
  simp only [List.length_append] at hlen
  exact List.eq_nil_of_length_eq_zero (by omega)

theorem takeWhile_notNl_append (x rest : List Char) (h : '\n' ∉ x) :
    (x ++ '\n' :: rest).takeWhile notNlB = x := by
  induction x with
  | nil => simp [List.takeWhile, notNlB]
  | cons a as ih =>
    simp only [List.mem_cons, not_or] at h
    simp only [List.cons_append, List.takeWhile_cons]
    rw [if_pos (by simp [notNlB]; exact fun hc => h.1 hc.symm),
      ih h.2]

theorem dropWhile_notNl_append (x rest : List Char) (h : '\n' ∉ x) :
    (x ++ '\n' :: rest).dropWhile notNlB = '\n' :: rest := by
  induction x with
  | nil => simp [List.dropWhile, notNlB]
  | cons a as ih =>
    simp only [List.mem_cons, not_or] at h
    simp only [List.cons_append, List.dropWhile_cons]
    rw [if_pos (by simp [notNlB]; exact fun hc => h.1 hc.symm)]
    exact ih h.2

theorem splitNl_no_nl (x : List Char) (h : '\n' ∉ x) : splitNl x = [x] := by
  rw [splitNl, dropWhile_notNl x h, takeWhile_notNl x h]
  rfl

theorem splitNl_cons (x rest : List Char) (h : '\n' ∉ x) :
    splitNl (x ++ '\n' :: rest) = x :: splitNl rest := by
  rw [splitNl, dropWhile_notNl_append x rest h, takeWhile_notNl_append x rest h]
  rfl

theorem splitNl_joinNl (M : List (List Char)) (hM : M ≠ [])
    (h : ∀ l ∈ M, '\n' ∉ l) : splitNl (joinNl M) = M := by
  induction M with
  | nil => exact absurd rfl hM
  | cons x xs ih =>
    cases xs with
    | nil => exact splitNl_no_nl x (h x (by simp))
    | cons y ys =>
      rw [joinNl_cons_of_ne_nil x (y :: ys) (by simp),
        splitNl_cons x _ (h x (by simp)), ih (by simp)]
      intro l hl
      exact h l (by simp [hl])

theorem dropWhile_eq_self_of_head (p : Char → Bool) (a : Char) (m : List Char)
    (h : p a = false) : (a :: m).dropWhile p = a :: m := by
  simp [List.dropWhile_cons, h]

theorem stripWs_nil_all (l : List Char) (h : stripWs l = []) :
    ∀ c ∈ l, pySpace c = true := by
  unfold stripWs at h
  have h1 : (l.dropWhile pySpace).reverse.dropWhile pySpace = [] := by
    have := congrArg List.reverse h
    simpa using this
  have h3 : ∀ c ∈ l.dropWhile pySpace, pySpace c = true := by
    intro c hc
    exact List.dropWhile_eq_nil_iff.mp h1 c (by simpa using hc)
  intro c hc
  rw [← List.takeWhile_append_dropWhile (p := pySpace) (l := l)] at hc
  rcases List.mem_append.mp hc with h4 | h4
  · exact List.mem_takeWhile_imp h4
  · exact h3 c h4

theorem stripWs_ne_nil_of_mem (l : List Char) (c : Char) (hc : c ∈ l)
    (hs : pySpace c = false) : stripWs l ≠ [] := by
  intro h
  rw [stripWs_nil_all l h c hc] at hs
  exact Bool.noConfusion hs

theorem stripWs_eq_self (l : List Char) (h : ∀ c ∈ l, pySpace c = false) :
    stripWs l = l := by
  unfold stripWs
  have h1 : l.dropWhile pySpace = l := by
    cases l with
    | nil => rfl
    | cons a m => exact dropWhile_eq_self_of_head pySpace a m (h a (by simp))
  rw [h1]
  have h2 : l.reverse.dropWhile pySpace = l.reverse := by
    cases hr : l.reverse with
    | nil => rfl
    | cons a m =>
      refine dropWhile_eq_self_of_head pySpace a m (h a ?_)
      have : a ∈ l.reverse := by rw [hr]; simp
      simpa using this
  rw [h2, List.reverse_reverse]

theorem stripWs_sandwich (l : List Char) (a z : Char)
    (hh : l.head? = some a) (ha : pySpace a = false)
    (hl : l.getLast? = some z) (hz : pySpace z = false) :
    stripWs (l ++ ['\n']) = l := by
  obtain ⟨m, rfl⟩ : ∃ m, l = a :: m := by
    cases l with
    | nil => simp at hh
    | cons x xs => simp at hh; exact ⟨xs, by rw [hh]⟩
  unfold stripWs
  have h1 : ((a :: m) ++ ['\n']).dropWhile pySpace = (a :: m) ++ ['\n'] := by
    simpa using dropWhile_eq_self_of_head pySpace a (m ++ ['\n']) ha
  rw [h1]
  have h2 : ((a :: m) ++ ['\n']).reverse = '\n' :: (a :: m).reverse := by
    simp
  rw [h2]
  have h3 : ('\n' :: (a :: m).reverse).dropWhile pySpace
      = (a :: m).reverse.dropWhile pySpace := by
    simp [List.dropWhile_cons, pySpace]
  rw [h3]
  have h4 : (a :: m).reverse.head? = some z := by
    rw [List.head?_reverse]
    exact hl
  have h5 : (a :: m).reverse.dropWhile pySpace = (a :: m).reverse := by
    cases hr : (a :: m).reverse with
    | nil => simp at hr
    | cons x xs =>
      rw [hr] at h4
      simp only [List.head?_cons, Option.some.injEq] at h4
      exact dropWhile_eq_self_of_head pySpace x xs (h4 ▸ hz)
  rw [h5, List.reverse_reverse]

theorem digitCharOf_isDigit (d : Nat) : (digitCharOf d).isDigit = true := by
  unfold digitCharOf
  rcases d with _|_|_|_|_|_|_|_|_|_|d <;> simp [List.getD] <;> decide

theorem natToChars_all_digits (n : Nat) :
    ∀ c ∈ natToChars n, c.isDigit = true := by
  induction n using natToChars.induct with
  | case1 n h =>
    intro c hc
    rw [natToChars, dif_pos h] at hc
    simp only [List.mem_singleton] at hc
    exact hc ▸ digitCharOf_isDigit n
  | case2 n h ih =>
    intro c hc
    rw [natToChars, dif_neg h] at hc
    rcases List.mem_append.mp hc with h1 | h1
    · exact ih c h1
    · simp only [List.mem_singleton] at h1
      exact h1 ▸ digitCharOf_isDigit _

theorem natToChars_ne_nil (n : Nat) : natToChars n ≠ [] := by
  rw [natToChars]
  split <;> simp

theorem isDigit_not_space (c : Char) (h : c.isDigit = true) :
    pySpace c = false := by
  by_contra hb
  simp only [Bool.not_eq_false] at hb
  simp only [pySpace, Bool.or_eq_true, decide_eq_true_eq] at hb
  rcases hb with ((((rfl | rfl) | rfl) | rfl) | rfl) | rfl <;>
    exact absurd h (by decide)

theorem isDigit_ne_nl (c : Char) (h : c.isDigit = true) : c ≠ '\n' := by
  intro hc
  subst hc
  simp [Char.isDigit] at h

theorem isDigitStr_natToChars (n : Nat) : isDigitStr (natToChars n) = true := by
  simp only [isDigitStr, Bool.and_eq_true, Bool.not_eq_true', List.all_eq_true]
  refine ⟨?_, natToChars_all_digits n⟩
  cases hx : natToChars n with
  | nil => exact absurd hx (natToChars_ne_nil n)
  | cons a as => rfl

theorem mem_padZeros (w : Nat) (s : List Char) (c : Char)
    (h : c ∈ padZeros w s) : c = '0' ∨ c ∈ s := by
  unfold padZeros at h
  rcases List.mem_append.mp h with h1 | h1
  · exact Or.inl (List.eq_of_mem_replicate h1)
  · exact Or.inr h1

theorem mem_padNat (w n : Nat) (c : Char)
    (h : c ∈ padZeros w (natToChars n)) : c.isDigit = true := by
  rcases mem_padZeros w _ c h with rfl | h1
  · decide
  · exact natToChars_all_digits n c h1

theorem mem_format_timestamp (q : ℚ) (c : Char) (h : c ∈ format_timestamp q) :
    c.isDigit = true ∨ c = ':' ∨ c = ',' := by
  simp only [format_timestamp, List.mem_append, List.mem_cons] at h
  rcases h with ((h | h | h) | h | h) | h | h
  · exact Or.inl (mem_padNat _ _ _ h)
  · exact Or.inr (Or.inl h)
  · exact Or.inl (mem_padNat _ _ _ h)
  · exact Or.inr (Or.inl h)
  · exact Or.inl (mem_padNat _ _ _ h)
  · exact Or.inr (Or.inr h)
  · exact Or.inl (mem_padNat _ _ _ h)

theorem mem_of_getLast?_eq (l : List Char) (a : Char) (h : l.getLast? = some a) :
    a ∈ l :=
  List.mem_of_mem_getLast? (by rw [h]; simp)

theorem getLast?_cons_ne (x : Char) (xs : List Char) (h : xs ≠ []) :
    (x :: xs).getLast? = xs.getLast? := by
  cases xs with
  | nil => exact absurd rfl h
  | cons y ys => exact List.getLast?_cons_cons

theorem ne_nil_of_isEmpty_false (l : List Char) (h : l.isEmpty = false) :
    l ≠ [] := by
  cases l with
  | nil => simp at h
  | cons a as => simp

theorem mem_collapseWs_space (l : List Char) :
    ∀ c ∈ collapseWs l, pySpace c = true → c = ' ' := by
  induction l using collapseWs.induct with
  | case1 => intro c hc; simp [collapseWs] at hc
  | case2 d hd =>
    intro c hc _
    rw [collapseWs, if_pos hd] at hc
    simpa using hc
  | case3 d hd =>
    intro c hc hs
    rw [collapseWs, if_neg hd] at hc
    simp only [List.mem_singleton] at hc
    exact absurd (hc ▸ hs) hd
  | case4 c d cs hc hd ih =>
    intro x hx hs
    rw [collapseWs, if_pos hc, if_pos hd] at hx
    exact ih x hx hs
  | case5 c d cs hc hd ih =>
    intro x hx hs
    rw [collapseWs, if_pos hc, if_neg hd] at hx
    rcases List.mem_cons.mp hx with rfl | hx
    · rfl
    · exact ih x hx hs
  | case6 c d cs hc ih =>
    intro x hx hs
    rw [collapseWs, if_neg hc] at hx
    rcases List.mem_cons.mp hx with rfl | hx
    · exact absurd hs hc
    · exact ih x hx hs

theorem mem_dropWhile_of_mem (p : Char → Bool) (l : List Char) (c : Char)
    (h : c ∈ l.dropWhile p) : c ∈ l :=
  (List.dropWhile_suffix p).subset h

theorem mem_takeWhile_of_mem (p : Char → Bool) (l : List Char) (c : Char)
    (h : c ∈ l.takeWhile p) : c ∈ l :=
  (List.takeWhile_sublist p).subset h

theorem headD_mem_of_ne_nil (l : List Char) (d : Char) (h : l ≠ []) :
    headD l d ∈ l := by
  cases l with
  | nil => exact absurd rfl h
  | cons x xs => simp [headD]

theorem mem_fixPunctSpacing (l : List Char) :
    ∀ c ∈ fixPunctSpacing l, c ∈ l ∨ c = ' ' := by
  induction l using fixPunctSpacing.induct with
  | case1 => intro c hc; simp [fixPunctSpacing] at hc
  | case2 c cs hc ih =>
    intro x hx
    rw [fixPunctSpacing, if_pos hc] at hx
    rcases List.mem_cons.mp hx with rfl | hx
    · exact Or.inl (by simp)
    · rcases List.mem_cons.mp hx with rfl | hx
      · exact Or.inr rfl
      · rcases ih x hx with h1 | h1
        · exact Or.inl (by simp [mem_dropWhile_of_mem pySpace cs x h1])
        · exact Or.inr h1
  | case3 c cs hc hs rest hif ih =>
    intro x hx
    rw [fixPunctSpacing, if_neg hc, if_pos hs, if_pos hif] at hx
    have hrest : rest ≠ [] := by
      rcases Bool.and_eq_true_iff.mp hif with ⟨_, h2⟩
      simp only [Bool.not_eq_true'] at h2
      exact ne_nil_of_isEmpty_false rest h2
    rcases List.mem_cons.mp hx with rfl | hx
    · exact Or.inl (by
        simp only [List.mem_cons]
        exact Or.inr (mem_dropWhile_of_mem pySpace cs _
          (headD_mem_of_ne_nil rest ' ' hrest)))
    · rcases List.mem_cons.mp hx with rfl | hx
      · exact Or.inr rfl
      · rcases ih x hx with h1 | h1
        · have hx1 : x ∈ rest.tail := mem_dropWhile_of_mem pySpace rest.tail x h1
          have hx2 : x ∈ rest := List.mem_of_mem_tail hx1
          have hx3 : x ∈ cs := mem_dropWhile_of_mem pySpace cs x hx2
          exact Or.inl (by simp [hx3])
        · exact Or.inr h1
  | case4 c cs hc hs rest hif ih =>
    intro x hx
    rw [fixPunctSpacing, if_neg hc, if_pos hs, if_neg hif] at hx
    rcases List.mem_append.mp hx with h1 | h1
    · rcases List.mem_cons.mp h1 with rfl | h1
      · exact Or.inl (by simp)
      · exact Or.inl (by
          simp only [List.mem_cons]
          exact Or.inr (mem_takeWhile_of_mem pySpace cs x h1))
    · rcases ih x h1 with h2 | h2
      · exact Or.inl (by
          simp only [List.mem_cons]
          exact Or.inr (mem_dropWhile_of_mem pySpace cs x h2))
      · exact Or.inr h2
  | case5 c cs hc hs ih =>
    intro x hx
    rw [fixPunctSpacing, if_neg hc, if_neg hs] at hx
    rcases List.mem_cons.mp hx with rfl | hx
    · exact Or.inl (by simp)
    · rcases ih x hx with h1 | h1
      · exact Or.inl (by simp [h1])
      · exact Or.inr h1

theorem mem_dropSpaceBeforePunct (l : List Char) :
    ∀ c ∈ dropSpaceBeforePunct l, c ∈ l := by
  induction l using dropSpaceBeforePunct.induct with
  | case1 => intro c hc; simp [dropSpaceBeforePunct] at hc
  | case2 c cs hs rest hif ih =>
    intro x hx
    rw [dropSpaceBeforePunct, if_pos hs, if_pos hif] at hx
    have hrest : rest ≠ [] := by
      rcases Bool.and_eq_true_iff.mp hif with ⟨_, h2⟩
      simp only [Bool.not_eq_true'] at h2
      exact ne_nil_of_isEmpty_false rest h2
    rcases List.mem_cons.mp hx with rfl | hx
    · simp only [List.mem_cons]
      exact Or.inr (mem_dropWhile_of_mem pySpace cs _
        (headD_mem_of_ne_nil rest ' ' hrest))
    · have hx2 : x ∈ rest := List.mem_of_mem_tail (ih x hx)
      simp only [List.mem_cons]
      exact Or.inr (mem_dropWhile_of_mem pySpace cs x hx2)
  | case3 c cs hs rest hif ih =>
    intro x hx
    rw [dropSpaceBeforePunct, if_pos hs, if_neg hif] at hx
    rcases List.mem_append.mp hx with h1 | h1
    · rcases List.mem_cons.mp h1 with rfl | h1
      · simp
      · simp only [List.mem_cons]
        exact Or.inr (mem_takeWhile_of_mem pySpace cs x h1)
    · simp only [List.mem_cons]
      exact Or.inr (mem_dropWhile_of_mem pySpace cs x (ih x h1))
  | case4 c cs hs ih =>
    intro x hx
    rw [dropSpaceBeforePunct, if_neg hs] at hx
    rcases List.mem_cons.mp hx with rfl | hx
    · simp
    · simp only [List.mem_cons]
      exact Or.inr (ih x hx)

theorem mem_stripPunctEnds (l : List Char) :
    ∀ c ∈ stripPunctEnds l, c ∈ l := by
  intro c hc
  unfold stripPunctEnds at hc
  have h1 : c ∈ (l.dropWhile stripSet).reverse.dropWhile stripSet := by
    simpa using hc
  have h2 : c ∈ (l.dropWhile stripSet).reverse :=
    mem_dropWhile_of_mem stripSet _ c h1
  have h3 : c ∈ l.dropWhile stripSet := by simpa using h2
  exact mem_dropWhile_of_mem stripSet l c h3

theorem pyUpperCh_cases (d : Char) :
    pyUpperCh d = d ∨ ∃ q ∈ upperTable, pyUpperCh d = q.2 := by
  unfold pyUpperCh
  cases hf : upperTable.find? (fun p => p.1 = d) with
  | none => simp
  | some p =>
    right
    exact ⟨p, List.mem_of_find?_eq_some hf, by simp⟩

theorem pyUpperCh_lower_not_space (d : Char) (h : isAsciiLower d = true) :
    pySpace (pyUpperCh d) = false := by
  unfold isAsciiLower at h
  rcases List.any_eq_true.mp h with ⟨p, hp, hpd⟩
  unfold pyUpperCh
  cases hf : upperTable.find? (fun q => q.1 = d) with
  | none =>
    rw [List.find?_eq_none] at hf
    exact absurd hpd (by simpa using hf p hp)
  | some q =>
    have hq : q ∈ upperTable := List.mem_of_find?_eq_some hf
    have : ∀ r ∈ upperTable, pySpace r.2 = false := by decide
    simpa using this q hq

theorem mem_capAfterPunct_space (l : List Char)
    (hl : ∀ c ∈ l, pySpace c = true → c = ' ') :
    ∀ c ∈ capAfterPunct l, pySpace c = true → c = ' ' := by
  induction l using capAfterPunct.induct with
  | case1 => intro c hc; simp [capAfterPunct] at hc
  | case2 c cs run rest hif ih =>
    intro x hx hs
    rw [capAfterPunct, if_pos hif] at hx
    have hlow : isAsciiLower (headD rest ' ') = true := by
      rcases Bool.and_eq_true_iff.mp hif with ⟨_, h2⟩
      exact h2
    rcases List.mem_cons.mp hx with rfl | hx
    · exact hl x (by simp) hs
    · rcases List.mem_append.mp hx with h1 | h1
      · refine hl x ?_ hs
        simp only [List.mem_cons]
        exact Or.inr (mem_takeWhile_of_mem pySpace cs x h1)
      · rcases List.mem_cons.mp h1 with rfl | h1
        · exact absurd hs (by simp [pyUpperCh_lower_not_space _ hlow])
        · refine ih ?_ x h1 hs
          intro y hy hys
          refine hl y ?_ hys
          have hy2 : y ∈ rest := List.mem_of_mem_tail hy
          simp only [List.mem_cons]
          exact Or.inr (mem_dropWhile_of_mem pySpace cs y hy2)
  | case3 c cs run rest hif ih =>
    intro x hx hs
    rw [capAfterPunct, if_neg hif] at hx
    rcases List.mem_cons.mp hx with rfl | hx
    · exact hl x (by simp) hs
    · refine ih ?_ x hx hs
      intro y hy hys
      exact hl y (by simp [hy]) hys

theorem clean_space_prop (l : List Char) :
    ∀ c ∈ clean_subtitle_text l, pySpace c = true → c = ' ' := by
  unfold clean_subtitle_text
  refine mem_capAfterPunct_space _ ?_
  intro c hc hs
  have h1 : c ∈ dropSpaceBeforePunct (fixPunctSpacing (collapseWs l)) :=
    mem_stripPunctEnds _ c hc
  have h2 : c ∈ fixPunctSpacing (collapseWs l) :=
    mem_dropSpaceBeforePunct _ c h1
  rcases mem_fixPunctSpacing _ c h2 with h3 | h3
  · exact mem_collapseWs_space l c h3 hs
  · exact h3

theorem clean_no_nl (l : List Char) : '\n' ∉ clean_subtitle_text l := by
  intro h
  have := clean_space_prop l '\n' h (by decide)
  exact absurd this (by decide)

theorem head?_dropWhile_false (p : Char → Bool) (l : List Char) (c : Char)
    (h : (l.dropWhile p).head? = some c) : p c = false := by
  induction l with
  | nil => simp at h
  | cons a as ih =>
    rw [List.dropWhile_cons] at h
    by_cases hp : p a = true
    · rw [if_pos hp] at h
      exact ih h
    · rw [if_neg hp] at h
      simp only [List.head?_cons, Option.some.injEq] at h
      subst h
      exact Bool.not_eq_true _ ▸ Bool.of_not_eq_true hp

theorem stripPunctEnds_getLast_not (l : List Char) (c : Char)
    (h : (stripPunctEnds l).getLast? = some c) : stripSet c = false := by
  unfold stripPunctEnds at h
  rw [List.getLast?_reverse] at h
  exact head?_dropWhile_false stripSet _ c h

theorem cons_headD_tail (l : List Char) (d : Char) (h : l ≠ []) :
    l = headD l d :: l.tail := by
  cases l with
  | nil => exact absurd rfl h
  | cons x xs => rfl

theorem capAfterPunct_nil_iff (l : List Char) :
    capAfterPunct l = [] ↔ l = [] := by
  cases l with
  | nil => simp [capAfterPunct]
  | cons c cs =>
    rw [capAfterPunct]
    split <;> simp

theorem capAfterPunct_nil : capAfterPunct [] = [] := by
  simp [capAfterPunct]

theorem getLast?_append_cons (m : List Char) (u : Char) (K : List Char) :
    (m ++ u :: K).getLast? = (u :: K).getLast? :=
  List.getLast?_append_of_ne_nil _ (by simp)

theorem capAfterPunct_getLast_not_space (l : List Char)
    (hl : ∀ z, l.getLast? = some z → pySpace z = false) :
    ∀ z, (capAfterPunct l).getLast? = some z → pySpace z = false := by
  induction l using capAfterPunct.induct with
  | case1 => intro z hz; simp [capAfterPunct] at hz
  | case2 c cs run rest hif ih =>
    intro z hz
    rw [capAfterPunct, if_pos hif] at hz
    have hlow : isAsciiLower (headD rest ' ') = true :=
      (Bool.and_eq_true_iff.mp hif).2
    have hrest : rest ≠ [] := by
      intro hr
      rw [hr] at hlow
      exact absurd hlow (by decide)
    have hcs : cs ≠ [] := by
      intro hcs
      exact hrest (by simp [rest, hcs])
    by_cases htl : rest.tail = []
    · rw [htl, capAfterPunct_nil, getLast?_append_cons] at hz
      simp only [List.getLast?_singleton, Option.some.injEq] at hz
      subst hz
      exact pyUpperCh_lower_not_space _ hlow
    · have hK : capAfterPunct rest.tail ≠ [] := by
        intro hk
        exact htl ((capAfterPunct_nil_iff rest.tail).mp hk)
      rw [getLast?_append_cons, getLast?_cons_ne _ _ hK] at hz
      refine ih ?_ z hz
      intro y hy
      refine hl y ?_
      rw [getLast?_cons_ne _ _ hcs]
      have hsplit : cs = cs.takeWhile pySpace ++ rest :=
        (List.takeWhile_append_dropWhile (p := pySpace) (l := cs)).symm
      rw [hsplit, List.getLast?_append_of_ne_nil _ hrest,
        cons_headD_tail rest ' ' hrest, getLast?_cons_ne _ _ htl]
      exact hy
  | case3 c cs run rest hif ih =>
    intro z hz
    rw [capAfterPunct, if_neg hif] at hz
    by_cases hcs : cs = []
    · subst hcs
      rw [capAfterPunct_nil] at hz
      simp only [List.getLast?_singleton, Option.some.injEq] at hz
      subst hz
      exact hl _ (by simp)
    · have hK : capAfterPunct cs ≠ [] := by
        intro hk
        exact hcs ((capAfterPunct_nil_iff cs).mp hk)
      rw [getLast?_cons_ne _ _ hK] at hz
      refine ih ?_ z hz
      intro y hy
      refine hl y ?_
      rw [getLast?_cons_ne _ _ hcs]
      exact hy

theorem clean_nil : clean_subtitle_text [] = [] := by
  unfold clean_subtitle_text
  have h1 : collapseWs [] = [] := rfl
  have h2 : fixPunctSpacing [] = [] := by simp [fixPunctSpacing]
  have h3 : dropSpaceBeforePunct [] = [] := by simp [dropSpaceBeforePunct]
  have h4 : stripPunctEnds [] = [] := rfl
  rw [h1, h2, h3, h4, capAfterPunct_nil]

theorem clean_getLast_not_space (l : List Char) :
    ∀ z, (clean_subtitle_text l).getLast? = some z → pySpace z = false := by
  unfold clean_subtitle_text
  refine capAfterPunct_getLast_not_space _ ?_
  intro z hz
  have h1 : stripSet z = false := stripPunctEnds_getLast_not _ z hz
  have h2 : z ∈ stripPunctEnds (dropSpaceBeforePunct (fixPunctSpacing (collapseWs l))) :=
    mem_of_getLast?_eq _ z hz
  by_contra hb
  simp only [Bool.not_eq_false] at hb
  have h3 : z ∈ dropSpaceBeforePunct (fixPunctSpacing (collapseWs l)) :=
    mem_stripPunctEnds _ z h2
  have h4 : z ∈ fixPunctSpacing (collapseWs l) := mem_dropSpaceBeforePunct _ z h3
  have h5 : z = ' ' := by
    rcases mem_fixPunctSpacing _ z h4 with h6 | h6
    · exact mem_collapseWs_space _ z h6 hb
    · exact h6
  subst h5
  simp [stripSet] at h1

theorem srtLines_eq_numberedBlocks (segs : List Seg) (n : Nat) :
    srtLines segs n = numberedBlocks n (segs.filterMap keptEntry) := by
  induction segs generalizing n with
  | nil => rfl
  | cons s rest ih =>
    rw [List.filterMap_cons]
    simp only [srtLines]
    by_cases h0 : (stripWs s.text).isEmpty = true
    · rw [if_pos h0]
      have ht : clean_subtitle_text (stripWs s.text) = [] := by
        rw [List.isEmpty_iff.mp h0]
        exact clean_nil
      have hk : keptEntry s = none := by
        simp only [keptEntry, ht]
        simp
      rw [hk]
      exact ih n
    · rw [if_neg h0]
      by_cases h1 :
          (decide ((clean_subtitle_text (stripWs s.text)).length < 1) ||
            (decide ((clean_subtitle_text (stripWs s.text)).length < 3) &&
              !(clean_subtitle_text (stripWs s.text)).any isDevB)) = true
      · rw [if_pos h1]
        have hk : keptEntry s = none := by
          simp only [keptEntry]
          simp only [Bool.or_eq_true, Bool.and_eq_true, decide_eq_true_eq,
            Bool.not_eq_true'] at h1
          rcases h1 with h1 | ⟨h1a, h1b⟩
          · have : clean_subtitle_text (stripWs s.text) = [] :=
              List.eq_nil_of_length_eq_zero (by omega)
            simp [this]
          · have hlen : ¬(3 ≤ (clean_subtitle_text (stripWs s.text)).length) := by
              omega
            simp [hlen, h1b]
        rw [hk]
        exact ih n
      · rw [if_neg h1]
        by_cases h2 : (junkOnly (clean_subtitle_text (stripWs s.text)) &&
            !hasWordOrDev (clean_subtitle_text (stripWs s.text))) = true
        · rw [if_pos h2]
          have hk : keptEntry s = none := by
            simp only [keptEntry]
            simp [h2]
          rw [hk]
          exact ih n
        · rw [if_neg h2]
          have hk : keptEntry s = some
              (format_timestamp s.start ++ " --> ".toList ++ format_timestamp s.stop,
               clean_subtitle_text (stripWs s.text)) := by
            simp only [keptEntry]
            rw [if_pos ?_]
            simp only [Bool.or_eq_true, Bool.and_eq_true, decide_eq_true_eq,
              Bool.not_eq_true', not_or, not_and] at h1
            obtain ⟨h1a, h1b⟩ := h1
            simp only [Bool.and_eq_true, Bool.not_eq_true', Bool.or_eq_true,
              decide_eq_true_eq]
            refine ⟨⟨?_, ?_⟩, ?_⟩
            · cases hx : clean_subtitle_text (stripWs s.text) with
              | nil =>
                exact absurd
                  (show (clean_subtitle_text (stripWs s.text)).length < 1 by
                    rw [hx]; simp) h1a
              | cons a as => rfl
            · by_cases h3 : (clean_subtitle_text (stripWs s.text)).length < 3
              · exact Or.inr (by
                  have := h1b h3
                  simpa using this)
              · exact Or.inl (by omega)
            · simpa using h2
          rw [hk]
          simp only [numberedBlocks]
          rw [ih (n + 1)]

theorem arrow_chars : " --> ".toList = [' '] ++ "-->".toList ++ [' '] := rfl

theorem ts_line_has_arrow (a b : ℚ) :
    containsSub "-->".toList
      (format_timestamp a ++ " --> ".toList ++ format_timestamp b) = true := by
  have h := containsSub_middle "-->".toList (format_timestamp a ++ [' '])
    (' ' :: format_timestamp b)
  have heq : (format_timestamp a ++ [' ']) ++ "-->".toList ++ (' ' :: format_timestamp b)
      = format_timestamp a ++ " --> ".toList ++ format_timestamp b := by
    rw [arrow_chars]
    simp
  rw [heq] at h
  exact h

theorem ts_line_no_nl (a b : ℚ) :
    '\n' ∉ format_timestamp a ++ " --> ".toList ++ format_timestamp b := by
  intro h
  rcases List.mem_append.mp h with h1 | h1
  · rcases List.mem_append.mp h1 with h2 | h2
    · rcases mem_format_timestamp a '\n' h2 with h3 | h3 | h3
      · exact absurd h3 (by decide)
      · exact absurd h3 (by decide)
      · exact absurd h3 (by decide)
    · exact absurd h2 (by decide)
  · rcases mem_format_timestamp b '\n' h1 with h3 | h3 | h3
    · exact absurd h3 (by decide)
    · exact absurd h3 (by decide)
    · exact absurd h3 (by decide)

theorem keptEntry_ok (s : Seg) (ts t : List Char)
    (h : keptEntry s = some (ts, t)) : EntryOk ts t := by
  simp only [keptEntry] at h
  by_cases hc : (!(clean_subtitle_text (stripWs s.text)).isEmpty &&
      (decide (3 ≤ (clean_subtitle_text (stripWs s.text)).length) ||
        (clean_subtitle_text (stripWs s.text)).any isDevB) &&
      !(junkOnly (clean_subtitle_text (stripWs s.text)) &&
        !hasWordOrDev (clean_subtitle_text (stripWs s.text)))) = true
  · rw [if_pos hc] at h
    simp only [Option.some.injEq, Prod.mk.injEq] at h
    obtain ⟨hts, htt⟩ := h
    subst hts
    subst htt
    refine ⟨ts_line_has_arrow s.start s.stop, ts_line_no_nl s.start s.stop, ?_, ?_, ?_⟩
    · rcases Bool.and_eq_true_iff.mp hc with ⟨hc1, _⟩
      rcases Bool.and_eq_true_iff.mp hc1 with ⟨hc2, _⟩
      simp only [Bool.not_eq_true'] at hc2
      exact ne_nil_of_isEmpty_false _ hc2
    · exact clean_no_nl (stripWs s.text)
    · exact clean_getLast_not_space (stripWs s.text)
  · rw [if_neg hc] at h
    exact absurd h (by simp)

theorem nb_no_nl (entries : List (List Char × List Char)) (n : Nat)
    (hok : ∀ e ∈ entries, EntryOk e.1 e.2) :
    ∀ l ∈ numberedBlocks n entries, '\n' ∉ l := by
  induction entries generalizing n with
  | nil => intro l hl; simp [numberedBlocks] at hl
  | cons e rest ih =>
    obtain ⟨ts, t⟩ := e
    intro l hl
    simp only [numberedBlocks, List.mem_cons] at hl
    have hok0 := hok (ts, t) (by simp)
    rcases hl with rfl | rfl | rfl | rfl | hl
    · intro hn
      exact absurd (natToChars_all_digits n '\n' hn) (by decide)
    · exact hok0.2.1
    · exact hok0.2.2.2.1
    · simp
    · exact ih (n + 1) (fun e he => hok e (by simp [he])) l hl

theorem nb_split (entries : List (List Char × List Char)) (n : Nat)
    (hne : entries ≠ []) (hok : ∀ e ∈ entries, EntryOk e.1 e.2) :
    ∃ ts M₂ t, numberedBlocks n entries
        = (natToChars n :: ts :: (M₂ ++ [t])) ++ [[]] ∧
      (∃ c, t.getLast? = some c ∧ pySpace c = false) ∧
      containsSub "-->".toList ts = true := by
  induction entries generalizing n with
  | nil => exact absurd rfl hne
  | cons e rest ih =>
    obtain ⟨ts, t⟩ := e
    have hok0 := hok (ts, t) (by simp)
    cases rest with
    | nil =>
      refine ⟨ts, [], t, by simp [numberedBlocks], ?_, hok0.1⟩
      have hne : t ≠ [] := hok0.2.2.1
      cases hx : t.getLast? with
      | none => exact absurd (List.getLast?_eq_none_iff.mp hx) hne
      | some c => exact ⟨c, rfl, hok0.2.2.2.2 c hx⟩
    | cons e2 rest2 =>
      obtain ⟨ts', M₂', t', hsplit, hlast, _⟩ :=
        ih (n + 1) (by simp) (fun x hx => hok x (by simp [hx]))
      refine ⟨ts, t :: [] :: natToChars (n + 1) :: ts' :: M₂', t', ?_, hlast, hok0.1⟩
      simp only [numberedBlocks] at hsplit ⊢
      rw [hsplit]
      simp

theorem natToChars_one : natToChars 1 = ['1'] := by
  rw [natToChars]
  simp [digitCharOf]

theorem validate_blocks (entries : List (List Char × List Char))
    (hne : entries ≠ []) (hok : ∀ e ∈ entries, EntryOk e.1 e.2) :
    validate_srt_file (joinNl (numberedBlocks 1 entries))
      = (true, "SRT file is valid".toList) := by
  obtain ⟨ts, M₂, t, hsplit, ⟨c, hlast, hcs⟩, harrow⟩ := nb_split entries 1 hne hok
  set N : List (List Char) := natToChars 1 :: ts :: (M₂ ++ [t]) with hN
  have hNne : N ≠ [] := by simp [hN]
  have htne : t ≠ [] := by
    intro h
    rw [h] at hlast
    simp at hlast
  have hjoin : joinNl (numberedBlocks 1 entries) = joinNl N ++ '\n' :: [] := by
    rw [hsplit]
    exact joinNl_append_singleton N [] hNne
  have hmem : ∀ l ∈ N, '\n' ∉ l := by
    intro l hl
    refine nb_no_nl entries 1 hok l ?_
    rw [hsplit]
    exact List.mem_append.mpr (Or.inl hl)
  have hhead : (joinNl N).head? = some '1' := by
    rw [hN, joinNl_cons_of_ne_nil _ _ (by simp), natToChars_one]
    rfl
  have hNalt : N = (natToChars 1 :: ts :: M₂) ++ [t] := by simp [hN]
  have hlastN : (joinNl N).getLast? = some c := by
    rw [hNalt, joinNl_append_singleton _ t (by simp), getLast?_append_cons,
      getLast?_cons_ne _ _ htne]
    exact hlast
  have hstrip : stripWs (joinNl N ++ '\n' :: []) = joinNl N :=
    stripWs_sandwich (joinNl N) '1' c hhead (by decide) hlastN hcs
  have hlines : splitNl (joinNl N) = N := splitNl_joinNl N hNne hmem
  have hjoinNe : (joinNl N).isEmpty = false := by
    cases hx : joinNl N with
    | nil => rw [hx] at hhead; simp at hhead
    | cons a as => rfl
  simp only [validate_srt_file]
  rw [hjoin, hstrip, if_neg (by simp [hjoinNe]), hlines]
  have hlen : ¬ N.length < 3 := by
    simp only [hN, List.length_cons, List.length_append]
    omega
  rw [if_neg (by simpa using hlen)]
  have hfirst : stripWs (N.head?.getD []) = natToChars 1 := by
    rw [hN]
    simp only [List.head?_cons, Option.getD_some]
    refine stripWs_eq_self _ ?_
    intro z hz
    exact isDigit_not_space z (natToChars_all_digits 1 z hz)
  have hdig : isDigitStr (stripWs (N.head?.getD [])) = true := by
    rw [hfirst]
    exact isDigitStr_natToChars 1
  rw [if_neg (by simp [hdig])]
  have hany : (N.take 10).any (fun l => containsSub "-->".toList l) = true := by
    rw [hN]
    simp only [List.take_succ_cons, List.any_cons, Bool.or_eq_true]
    exact Or.inr (Or.inl harrow)
  rw [if_neg (by rw [hany]; simp)]

theorem entries_ok (p : List Seg) :
    ∀ e ∈ p.filterMap keptEntry, EntryOk e.1 e.2 := by
  intro e he
  rcases List.mem_filterMap.mp he with ⟨s, _, hs⟩
  exact keptEntry_ok s e.1 e.2 (by simpa using hs)

theorem convert_head_one (p : List Seg) (h : srtLines p 1 ≠ []) :
    (convert_to_srt p).head? = some '1' := by
  unfold convert_to_srt
  rw [srtLines_eq_numberedBlocks] at h ⊢
  cases hE : p.filterMap keptEntry with
  | nil => rw [hE] at h; simp [numberedBlocks] at h
  | cons e rest =>
    obtain ⟨ts, t⟩ := e
    simp only [numberedBlocks]
    rw [joinNl_cons_of_ne_nil _ _ (by simp), natToChars_one]
    rfl

theorem isErrorOutput_head_one (s : List Char) (h : s.head? = some '1') :
    isErrorOutput s = false := by
  cases s with
  | nil => simp at h
  | cons a rest =>
    simp only [List.head?_cons, Option.some.injEq] at h
    subst h
    simp [isErrorOutput, listStartsWith]

theorem stripWs_convert_ne (p : List Seg) (h : srtLines p 1 ≠ []) :
    stripWs (convert_to_srt p) ≠ [] := by
  have h1 := convert_head_one p h
  cases hx : convert_to_srt p with
  | nil => rw [hx] at h1; simp at h1
  | cons a rest =>
    rw [hx] at h1
    simp only [List.head?_cons, Option.some.injEq] at h1
    subst h1
    exact stripWs_ne_nil_of_mem _ '1' (by simp) (by decide)

theorem stripWs_convert_nil (p : List Seg) (h : srtLines p 1 = []) :
    stripWs (convert_to_srt p) = [] := by
  unfold convert_to_srt
  rw [h]
  rfl

theorem listStartsWith_append_right (p l m : List Char)
    (h : listStartsWith p l = true) : listStartsWith p (l ++ m) = true := by
  induction p generalizing l with
  | nil => simp [listStartsWith]
  | cons a as ih =>
    cases l with
    | nil => simp [listStartsWith] at h
    | cons c cs =>
      simp only [listStartsWith, Bool.and_eq_true] at h ⊢
      exact ⟨h.1, ih cs h.2⟩

theorem isErrorOutput_engineErr (e : List Char) :
    isErrorOutput (errEngineHead ++ e) = true := by
  unfold isErrorOutput
  refine listStartsWith_append_right _ _ e ?_
  decide

theorem isErrorOutput_fileNotFound (p : List Char) :
    isErrorOutput (errFileNotFound p) = true := by
  unfold isErrorOutput errFileNotFound
  refine listStartsWith_append_right _ _ p ?_
  decide

theorem finishTranscription_some (segs : List Seg) (lang : Option (List Char)) :
    finishTranscription (some segs) lang
      = if srtLines (post_process_hindi_hinglish segs lang) 1 = []
        then errEmptySrt
        else convert_to_srt (post_process_hindi_hinglish segs lang) := by
  simp only [finishTranscription]
  by_cases h : srtLines (post_process_hindi_hinglish segs lang) 1 = []
  · rw [if_pos h]
    rw [if_pos]
    rw [stripWs_convert_nil _ h]
    rfl
  · rw [if_neg h]
    rw [if_neg]
    intro hx
    exact stripWs_convert_ne _ h (List.isEmpty_iff.mp hx)

theorem runCallbacks_flags (mid : List (List Char × List Char × Option Nat)) :
    ∀ (tj : Tracker × JobData),
      (runCallbacks tj mid).1.completed = tj.1.completed ∧
      (runCallbacks tj mid).1.error = tj.1.error := by
  induction mid with
  | nil => intro tj; exact ⟨rfl, rfl⟩
  | cons u rest ih =>
    intro tj
    simp only [runCallbacks, List.foldl_cons]
    exact ih _

/-! Claim theorems. -/

/-- Claim C2: detect_language_type applies, in order with first match
winning, the rules stated by the claim: hindi when (tag 'hi' or more than
ten Devanagari characters) and the Devanagari count exceeds 30% of the
sample length; hinglish when the first disjunction holds but the 30% bound
does not; hinglish when more than three indicator words match or one of
the romanized tokens occurs; english otherwise. -/
theorem c2_detect_language_rules (tag sample : List Char) :
    detect_language_type tag sample = detectLanguageTypeSpec tag sample := by
  simp only [detect_language_type, detectLanguageTypeSpec]
  split_ifs <;> first | rfl | tauto

set_option maxRecDepth 100000 in
unseal pyReplace fixPunctSpacing dropSpaceBeforePunct capAfterPunct
  dedupePunct splitSent natToChars splitNl in
/-- Claim C7 (code bug): the pipeline's per-segment normalizer — the
correction pass followed by the subtitle cleaning pass — is not
idempotent.  On the failing input "5 kar  na" (a doubled space inside a
correction-table key) one application gives "5 kar na", but a second
application then matches the key 'kar na' and gives "5 karna". -/
theorem c7_normalize_not_idempotent :
    normalize_text (normalize_text "5 kar  na".toList)
        ≠ normalize_text "5 kar  na".toList ∧
    normalize_text "5 kar  na".toList = "5 kar na".toList ∧
    normalize_text (normalize_text "5 kar  na".toList) = "5 karna".toList := by
  refine ⟨?_, ?_, ?_⟩ <;> decide

/-- Claim C4 (code bug): when the background run fails, the handler first
writes error and completed=True into the job dictionary, but the final
tracker.update then overwrites the completed flag with the tracker's own
flag, which was never set on this path — the failed job record ends with
completed = false, and a status poll returns an error response whose
completed field is false, contrary to the claim's terminal
completed-with-error state. -/
theorem c4_failed_job_completed_flag :
    (process_video_background initJobData []
        ⟨none, none, "Failed to extract audio from video".toList⟩).2.error
      = some "Failed to extract audio from video".toList ∧
    (process_video_background initJobData []
        ⟨none, none, "Failed to extract audio from video".toList⟩).2.completed
      = false ∧
    get_job_status (process_video_background initJobData []
        ⟨none, none, "Failed to extract audio from video".toList⟩).2
      = ⟨"error".toList, none, none, some false,
         some "Failed to extract audio from video".toList⟩ := by
  refine ⟨?_, ?_, ?_⟩ <;> decide

/-- Claim C9 counterexample: with ffmpeg available, a valid SRT and a
successfully written styled .ass file, a non-zero exit of strategy 1
followed by a successful strategy 2 makes burn_subtitles_to_video return
success while the .ass file still exists — the temporary artifact
persists after the call, refuting cleanup on every outcome. -/
theorem c9_ass_file_persists :
    burn_subtitles_to_video ⟨true, true, true, .exitFail, .ok, .ok, .ok⟩
      = (true, ⟨true, false⟩) := by
  decide

/-- Claim C9 amended: the styled .ass file is removed exactly when
strategy 1's run succeeds, and persists whenever that run fails or times
out; the co-located temp_subtitles.srt copy is removed when strategy 3's
run completes (success or non-zero exit) but persists when that run times
out. -/
theorem c9_cleanup_behavior (e : BurnEnv)
    (hf : e.ffmpegAvailable = true) (hv : e.srtValid = true) :
    (e.styledAssOk = true → e.run1 = .ok →
      burn_subtitles_to_video e = (true, ⟨false, false⟩)) ∧
    (e.styledAssOk = true → e.run1 ≠ .ok →
      (burn_subtitles_to_video e).2.assFileExists = true) ∧
    (e.styledAssOk = false →
      (burn_subtitles_to_video e).2.assFileExists = false) ∧
    ((e.styledAssOk = false ∨ e.run1 ≠ .ok) → e.run2 ≠ .ok →
      e.run3 ≠ .timedOut →
      (burn_subtitles_to_video e).2.tempSrtExists = false) ∧
    ((e.styledAssOk = false ∨ e.run1 ≠ .ok) → e.run2 ≠ .ok →
      e.run3 = .timedOut →
      (burn_subtitles_to_video e).2.tempSrtExists = true) := by
  obtain ⟨f, v, sa, r1, r2, r3, r4⟩ := e
  simp only at hf hv
  subst hf
  subst hv
  cases sa <;> cases r1 <;> cases r2 <;> cases r3 <;> cases r4 <;> decide

/-- Witness for c9_cleanup_behavior at a concrete environment in which
strategy 3 times out: the copied SRT persists. -/
theorem c9_cleanup_behavior_witness :
    (burn_subtitles_to_video
        ⟨true, true, true, .exitFail, .exitFail, .timedOut, .exitFail⟩).2.tempSrtExists
      = true :=
  (c9_cleanup_behavior ⟨true, true, true, .exitFail, .exitFail, .timedOut, .exitFail⟩
    rfl rfl).2.2.2.2 (Or.inr (by decide)) (by decide) rfl

/-- Claim C1: with resolved language 'hi' and a successful primary pass,
transcribe_audio_local runs exactly one retry — language hint removed,
temperature 0.2 — precisely when the primary mean log-probability is
strictly below −0.8, and adopts the retry result exactly when the retry's
mean is strictly greater; with any other resolved language, or without
low confidence, only the primary call is made; the call count never
exceeds two. -/
theorem c1_retry_policy (path : List Char)
    (engine : Option (List Char) → ℚ → EngineResult)
    (r : Option (List Seg)) (h : engine (some hiCode) 0 = .ok r) :
    (meanLogprob (r.getD []) < lowConfThreshold →
      (transcribe_audio_local true path engine (some hiCode)).calls
        = [⟨some hiCode, 0⟩, ⟨none, retryTemp⟩] ∧
      ∀ r2, engine none retryTemp = .ok r2 →
        (transcribe_audio_local true path engine (some hiCode)).chosen
          = some (.ok (if meanLogprob (r2.getD []) > meanLogprob (r.getD [])
              then r2 else r))) ∧
    (¬ meanLogprob (r.getD []) < lowConfThreshold →
      (transcribe_audio_local true path engine (some hiCode)).calls
        = [⟨some hiCode, 0⟩] ∧
      (transcribe_audio_local true path engine (some hiCode)).chosen
        = some (.ok r)) ∧
    (∀ lang r', lang ≠ some hiCode → engine lang 0 = .ok r' →
      (transcribe_audio_local true path engine lang).calls = [⟨lang, 0⟩]) ∧
    (∀ lang, (transcribe_audio_local true path engine lang).calls.length ≤ 2) := by
  refine ⟨?_, ?_, ?_, ?_⟩
  · intro hlow
    cases he : engine none retryTemp with
    | error msg =>
      refine ⟨?_, ?_⟩
      · simp [transcribe_audio_local, h, he, hlow]
      · intro r2 hr2
        exact absurd hr2 (by simp)
    | ok r2 =>
      refine ⟨?_, ?_⟩
      · simp [transcribe_audio_local, h, he, hlow]
      · intro r2' hr2'
        simp only [Except.ok.injEq] at hr2'
        subst hr2'
        simp [transcribe_audio_local, h, he, hlow]
  · intro hhigh
    refine ⟨?_, ?_⟩
    · simp [transcribe_audio_local, h, hhigh]
    · simp [transcribe_audio_local, h, hhigh]
  · intro lang r' hne he
    simp [transcribe_audio_local, he, hne]
  · intro lang
    cases he : engine lang 0 with
    | error msg => simp [transcribe_audio_local, he]
    | ok r0 =>
      by_cases hc : meanLogprob (r0.getD []) < lowConfThreshold ∧ lang = some hiCode
      · obtain ⟨hc1, hc2⟩ := hc
        subst hc2
        cases he2 : engine none retryTemp with
        | error msg => simp [transcribe_audio_local, he, he2, hc1]
        | ok r2 => simp [transcribe_audio_local, he, he2, hc1]
      · simp [transcribe_audio_local, he, hc]

/-- Witness for c1_retry_policy: a primary pass of mean −0.9 under
language 'hi' triggers exactly one retry with the hint removed at
temperature 0.2, and the retry result of mean −0.5 is adopted. -/
theorem c1_retry_policy_witness :
    (transcribe_audio_local true [] c1WitnessEngine (some hiCode)).calls
      = [⟨some hiCode, 0⟩, ⟨none, retryTemp⟩] ∧
    (transcribe_audio_local true [] c1WitnessEngine (some hiCode)).chosen
      = some (.ok (some [⟨0, 1, "retry text".toList, some (-(1/2))⟩])) := by
  refine ⟨((c1_retry_policy [] c1WitnessEngine _ rfl).1
    (by norm_num [meanLogprob, lowConfThreshold])).1, ?_⟩
  have h2 := ((c1_retry_policy [] c1WitnessEngine _ rfl).1
    (by norm_num [meanLogprob, lowConfThreshold])).2
    (some [⟨0, 1, "retry text".toList, some (-(1/2))⟩]) rfl
  rw [h2, if_pos (by norm_num [meanLogprob])]

/-- Claim C8: once transcribe_audio_local has settled on an engine result,
a missing segment list yields the no-segments error string, surviving no
subtitle content after post-processing and filtering yields the
empty-output error string, and otherwise the serialized subtitle document
is returned. -/
theorem c8_error_contract (path : List Char)
    (engine : Option (List Char) → ℚ → EngineResult)
    (lang : Option (List Char)) (r : Option (List Seg))
    (h : (transcribe_audio_local true path engine lang).chosen = some (.ok r)) :
    (r = none →
      (transcribe_audio_local true path engine lang).output = errNoSegments) ∧
    ∀ segs, r = some segs →
      (srtLines (post_process_hindi_hinglish segs lang) 1 = [] →
        (transcribe_audio_local true path engine lang).output = errEmptySrt) ∧
      (srtLines (post_process_hindi_hinglish segs lang) 1 ≠ [] →
        (transcribe_audio_local true path engine lang).output
          = convert_to_srt (post_process_hindi_hinglish segs lang)) := by
  have hout : (transcribe_audio_local true path engine lang).output
      = finishTranscription r lang := by
    cases he : engine lang 0 with
    | error msg =>
      simp [transcribe_audio_local, he] at h
    | ok r0 =>
      by_cases hc : meanLogprob (r0.getD []) < lowConfThreshold ∧ lang = some hiCode
      · obtain ⟨hc1, hc2⟩ := hc
        subst hc2
        cases he2 : engine none retryTemp with
        | error msg =>
          simp [transcribe_audio_local, he, he2, hc1] at h
        | ok r2 =>
          simp [transcribe_audio_local, he, he2, hc1] at h ⊢
          first
          | rw [h]
          | rw [← h]
          | simp [h]
      · simp [transcribe_audio_local, he, hc] at h ⊢
        first
        | rw [h]
        | rw [← h]
        | simp [h]
  refine ⟨?_, ?_⟩
  · intro hr
    subst hr
    rw [hout]
    rfl
  · intro segs hr
    subst hr
    rw [hout, finishTranscription_some]
    constructor
    · intro hnil
      rw [if_pos hnil]
    · intro hne
      rw [if_neg hne]

unseal pyReplace fixPunctSpacing dropSpaceBeforePunct capAfterPunct
  dedupePunct splitSent natToChars splitNl in
/-- Witness for c8_error_contract: a confident English segment survives
processing and the serialized document is returned. -/
theorem c8_error_contract_witness :
    (transcribe_audio_local true [] c8WitnessEngine (some "en".toList)).output
      = convert_to_srt (post_process_hindi_hinglish
          [⟨0, 1, "hello there".toList, some 0⟩] (some "en".toList)) := by
  have hch : (transcribe_audio_local true [] c8WitnessEngine
        (some "en".toList)).chosen
      = some (.ok (some [⟨0, 1, "hello there".toList, some 0⟩])) := by
    rw [transcribe_audio_local]
    rw [if_neg (by simp)]
    simp only [c8WitnessEngine]
    rw [if_neg (fun hc => absurd hc.2 (by decide))]
  have h := c8_error_contract [] c8WitnessEngine (some "en".toList)
    (some [⟨0, 1, "hello there".toList, some 0⟩]) hch
  exact ((h.2 [⟨0, 1, "hello there".toList, some 0⟩] rfl).2 (by decide))

/-- Claim C10: every failure of transcribe_audio_local returns a string
beginning with "Error" — any return value is either Error-prefixed or the
serialized document of a survived segment list, never both — and
process_video_with_captions classifies the transcription as failed
exactly when the returned string has that prefix. -/
theorem c10_error_string_contract (ex : Bool) (path : List Char)
    (engine : Option (List Char) → ℚ → EngineResult)
    (lang : Option (List Char)) :
    (isErrorOutput (transcribe_audio_local ex path engine lang).output = true ∨
      ∃ p, (transcribe_audio_local ex path engine lang).output = convert_to_srt p ∧
        srtLines p 1 ≠ [] ∧
        isErrorOutput (transcribe_audio_local ex path engine lang).output = false) ∧
    ∀ createVideo e ofe,
      (process_video_with_captions true true
          (transcribe_audio_local ex path engine lang).output
          createVideo e ofe).srtPath = none
        ↔ isErrorOutput (transcribe_audio_local ex path engine lang).output
            = true := by
  have hmain : isErrorOutput (transcribe_audio_local ex path engine lang).output
        = true ∨
      ∃ p, (transcribe_audio_local ex path engine lang).output = convert_to_srt p ∧
        srtLines p 1 ≠ [] ∧
        isErrorOutput (transcribe_audio_local ex path engine lang).output
          = false := by
    cases ex with
    | false =>
      left
      rw [transcribe_audio_local]
      simp only [Bool.false_eq_true, not_false_eq_true, if_pos]
      exact isErrorOutput_fileNotFound path
    | true =>
      have hred : ∀ rf : Option (List Seg),
          isErrorOutput (finishTranscription rf lang) = true ∨
          ∃ p, finishTranscription rf lang = convert_to_srt p ∧ srtLines p 1 ≠ [] ∧
            isErrorOutput (finishTranscription rf lang) = false := by
        intro rf
        cases rf with
        | none =>
          left
          show isErrorOutput errNoSegments = true
          decide
        | some segs =>
          rw [finishTranscription_some]
          by_cases hnil : srtLines (post_process_hindi_hinglish segs lang) 1 = []
          · left
            rw [if_pos hnil]
            decide
          · right
            rw [if_neg hnil]
            refine ⟨post_process_hindi_hinglish segs lang, rfl, hnil, ?_⟩
            exact isErrorOutput_head_one _ (convert_head_one _ hnil)
      cases he : engine lang 0 with
      | error msg =>
        left
        rw [transcribe_audio_local]
        simp only [he]
        simp only [not_true, if_false]
        exact isErrorOutput_engineErr msg
      | ok r0 =>
        rw [transcribe_audio_local]
        simp only [he]
        by_cases hc : meanLogprob (r0.getD []) < lowConfThreshold ∧ lang = some hiCode
        · rw [if_pos hc]
          cases he2 : engine none retryTemp with
          | error msg =>
            left
            simp only [he2]
            simp only [not_true, if_false]
            exact isErrorOutput_engineErr msg
          | ok r2 =>
            simp only [he2]
            simp only [not_true, if_false]
            exact hred _
        · rw [if_neg hc]
          simp only [not_true, if_false]
          exact hred r0
  refine ⟨hmain, ?_⟩
  intro createVideo e ofe
  rw [process_video_with_captions]
  by_cases hp : isErrorOutput (transcribe_audio_local ex path engine lang).output
      = true
  · rw [if_neg (by simp), if_neg (by simp), if_pos hp]
    simp [hp]
  · rw [if_neg (by simp), if_neg (by simp), if_neg hp]
    simp only [Bool.not_eq_true] at hp
    simp [hp]

/-- Claim C3: when extraction and transcription succeed but every burn-in
attempt fails, process_video_with_captions still returns the subtitle path
with the Success message, and the finished job record is completed without
error; polling it yields the complete response with videoCreated = false
and no video reference. -/
theorem c3_burn_failure_nonfatal (srt : List Char) (e : BurnEnv) (ofe : Bool)
    (mid : List (List Char × List Char × Option Nat))
    (hsrt : isErrorOutput srt = false)
    (hburn : (burn_subtitles_to_video e).1 = false) :
    process_video_with_captions true true srt true e ofe
      = ⟨some srtSavePath, none, "Success".toList⟩ ∧
    (process_video_background initJobData mid
        ⟨some srtSavePath, none, "Success".toList⟩).2.completed = true ∧
    (process_video_background initJobData mid
        ⟨some srtSavePath, none, "Success".toList⟩).2.error = none ∧
    (process_video_background initJobData mid
        ⟨some srtSavePath, none, "Success".toList⟩).2.srt_path = some srtSavePath ∧
    get_job_status (process_video_background initJobData mid
        ⟨some srtSavePath, none, "Success".toList⟩).2
      = ⟨"complete".toList, some false, none, none, none⟩ := by
  have herr : (process_video_background initJobData mid
      ⟨some srtSavePath, none, "Success".toList⟩).2.error = none := by
    have hred : (process_video_background initJobData mid
        ⟨some srtSavePath, none, "Success".toList⟩).2.error
        = (runCallbacks (trackerUpdate initTracker initJobData
            "Initializing".toList "Starting video processing".toList
            (some 0)) mid).1.error := rfl
    rw [hred, (runCallbacks_flags mid _).2]
    rfl
  have hcomp : (process_video_background initJobData mid
      ⟨some srtSavePath, none, "Success".toList⟩).2.completed = true := rfl
  have hvid : (process_video_background initJobData mid
      ⟨some srtSavePath, none, "Success".toList⟩).2.video_with_subs_path
      = none := rfl
  refine ⟨?_, hcomp, herr, rfl, ?_⟩
  · rw [process_video_with_captions, if_neg (by simp), if_neg (by simp),
      if_neg (by simp [hsrt])]
    have hcond : ¬ (True ∧ (burn_subtitles_to_video e).1 = true
        ∧ ofe = true) := by
      intro hc
      rw [hburn] at hc
      exact Bool.noConfusion hc.2.1
    simp only [if_neg hcond]
  · rw [get_job_status, if_pos ⟨hcomp, herr⟩, hvid]
    rfl

/-- Witness for c3_burn_failure_nonfatal: a one-line transcription output
and an environment in which all four strategies exit non-zero. -/
theorem c3_burn_failure_nonfatal_witness :
    process_video_with_captions true true "1".toList true
        ⟨true, true, true, .exitFail, .exitFail, .exitFail, .exitFail⟩ true
      = ⟨some srtSavePath, none, "Success".toList⟩ ∧
    get_job_status (process_video_background initJobData []
        ⟨some srtSavePath, none, "Success".toList⟩).2
      = ⟨"complete".toList, some false, none, none, none⟩ := by
  have h := c3_burn_failure_nonfatal "1".toList
    ⟨true, true, true, .exitFail, .exitFail, .exitFail, .exitFail⟩ true []
    (by decide) (by decide)
  exact ⟨h.1, h.2.2.2.2⟩

unseal pyReplace fixPunctSpacing dropSpaceBeforePunct capAfterPunct
  dedupePunct splitSent natToChars splitNl in
/-- Claim C5: the serialization loop emits an entry for a segment exactly
when the claim's predicate on its cleaned text holds (non-empty; at least
3 characters unless Devanagari is present, where 1 suffices; not pure
whitespace/digit/punctuation noise), numbering the surviving entries
contiguously from 1 in source order; a sole "." segment yields no entry
and a sole "हाँ" segment yields exactly one, numbered 1. -/
theorem c5_srt_filter_numbering :
    (∀ segs, srtLines segs 1 = numberedBlocks 1 (segs.filterMap keptEntry)) ∧
    convert_to_srt [⟨0, 1, ".".toList, none⟩] = [] ∧
    srtLines [⟨0, 1, "हाँ".toList, none⟩] 1
      = [['1'], format_timestamp 0 ++ " --> ".toList ++ format_timestamp 1,
         "हाँ".toList, []] := by
  refine ⟨fun segs => srtLines_eq_numberedBlocks segs 1, by decide, ?_⟩
  simp only [srtLines]
  rw [if_neg (by decide), if_neg (by decide), if_neg (by decide),
    natToChars_one,
    show clean_subtitle_text (stripWs "हाँ".toList) = "हाँ".toList from by decide]

unseal pyReplace fixPunctSpacing dropSpaceBeforePunct capAfterPunct
  dedupePunct splitSent natToChars splitNl in
/-- Claim C6 counterexample: the document with the single segment "." is
non-empty and its segment text is non-empty, yet serializing it gives the
empty string, which validation rejects with the empty-file reason — the
claimed validate-serialize round trip fails on this non-empty document. -/
theorem c6_validate_serialize_counterexample :
    ([⟨0, 1, ".".toList, none⟩] : List Seg) ≠ [] ∧
    (⟨0, 1, ".".toList, none⟩ : Seg).text ≠ [] ∧
    validate_srt_file (convert_to_srt [⟨0, 1, ".".toList, none⟩])
      = (false, "SRT file is empty".toList) := by
  refine ⟨by simp, by decide, by decide⟩

/-- Claim C6 amended: for every document in which at least one segment
survives serialization filtering, validating the serialized output
succeeds with the valid reason; validating empty content fails with the
empty reason. -/
theorem c6_validate_serialize (segs : List Seg) (h : srtLines segs 1 ≠ []) :
    validate_srt_file (convert_to_srt segs)
      = (true, "SRT file is valid".toList) ∧
    validate_srt_file [] = (false, "SRT file is empty".toList) := by
  refine ⟨?_, by decide⟩
  unfold convert_to_srt
  rw [srtLines_eq_numberedBlocks] at h ⊢
  have hEne : segs.filterMap keptEntry ≠ [] := by
    intro hx
    rw [hx] at h
    exact h rfl
  exact validate_blocks _ hEne (entries_ok segs)

unseal pyReplace fixPunctSpacing dropSpaceBeforePunct capAfterPunct
  dedupePunct splitSent natToChars splitNl in
/-- Witness for c6_validate_serialize: the one-segment document "हाँ"
serializes to a document that validates. -/
theorem c6_validate_serialize_witness :
    validate_srt_file (convert_to_srt [⟨0, 1, "हाँ".toList, none⟩])
      = (true, "SRT file is valid".toList) :=
  (c6_validate_serialize [⟨0, 1, "हाँ".toList, none⟩] (by decide)).1

end SubGen
